import Mathlib

/-!
# Poker machine: hand evaluation and dealing engine

A shallow embedding of the poker mode of `src/poker_machine.cpp`
(`initialize_deck`, `deal_cards`, `deal_hand`, `redeal_card`, `redeal_cards`,
`get_ords`, the `check_*` predicates, `score_poker`, `play_poker`) together
with theorems about it.

Modelling conventions.

* The C++ globals `deck`, `hand`, `cards_to_deal`, `redeals_remaining`,
  `redeal_card_num`, `key_pressed` and `waiting` are the fields of `Game`;
  every function takes the state and returns the new one.
* The program reads two things from its environment: the keyboard
  (`GetKeyState`) and the random number generator (`shuffle(..., rng)`).  One
  `Poll` carries what a single iteration of a polling loop reads: the state of
  the Space key (read twice per iteration by `deal_hand`), the digit keys that
  are down, and the random draws used by the shuffle of that iteration.  A
  polling loop consumes one `Poll` per iteration; when the input list is used
  up while the loop is still polling, the result is `Stop.awaitingInput`.
* `std::shuffle` is library code.  It is modelled by `shuffle`, a selection
  shuffle driven by the list of random draws; every list of draws yields a
  permutation and every permutation is produced by some list of draws.
* `std::sort` is library code, modelled by insertion sort on `Int`.
* `int` values are `Int`.  The only arithmetic on them is `ords[i - 1] + 1`
  on ordinals `0..12` and the counters `0..5`, far from the 32-bit limits.
* An access `deck[i]`, `hand[i]` or `deck.erase(deck.begin())` outside the
  container is `Stop.outOfBounds`.
* Rendering, sleeping and the points ledger are not modelled.
-/

namespace PokerMachine

/-! ## Data model -/

/-- The `struct card` of the source: value character, suit character, ordinal. -/
structure card where
  val : Char
  suit : Char
  ord : Int
deriving DecidableEq, Repr, Inhabited

/-- The array `vals` of the source. -/
def vals : List Char :=
  ['2', '3', '4', '5', '6', '7', '8', '9', 'T', 'J', 'Q', 'K', 'A']

/-- The array `suits` of the source. -/
def suits : List Char := ['D', 'C', 'H', 'S']

/-- The array `card hand[5]`. -/
abbrev Hand := Fin 5 → card

/-- The cards of a hand in slot order. -/
def hand_cards (hand : Hand) : List card := List.ofFn hand

/-! ## Hand evaluator -/

/-- The ordinals of the five slots in slot order (the vector `ord_vals` of
`get_ords` before it is sorted). -/
def hand_ords (hand : Hand) : List Int := List.ofFn (fun i => (hand i).ord)

/-- Source `get_ords`: the ordinals of the five slots, sorted ascending. -/
def get_ords (hand : Hand) : List Int :=
  (hand_ords hand).insertionSort (· ≤ ·)

/-- Source `check_flush`: no slot `1..4` differs in suit from the slot before. -/
def check_flush (hand : Hand) : Bool :=
  [(1 : Fin 5), 2, 3, 4].all (fun i => (hand i).suit == (hand (i - 1)).suit)

/-- Source `check_straight`: every sorted ordinal is its predecessor plus one. -/
def check_straight (hand : Hand) : Bool :=
  let ords := get_ords hand
  [1, 2, 3, 4].all (fun i => ords.getD i 0 == ords.getD (i - 1) 0 + 1)

/-- Source `check_pairs`: counts the indices `i` in `1..4` of the sorted
ordinals where a run of equal values starts at `i - 1`. -/
def check_pairs (hand : Hand) : Int :=
  let ords := get_ords hand
  [1, 2, 3, 4].foldl
    (fun pairs i =>
      if ords.getD i 0 == ords.getD (i - 1) 0
          && (i == 1 || ords.getD i 0 != ords.getD (i - 2) 0)
      then pairs + 1 else pairs)
    0

/-- Source `check_n_of_a_kind`: `3` or `4` when the sorted ordinals hold a run
of three or four equal values, else `0`; later indices overwrite earlier ones. -/
def check_n_of_a_kind (hand : Hand) : Int :=
  let ords := get_ords hand
  [2, 3, 4].foldl
    (fun n i =>
      if ords.getD i 0 == ords.getD (i - 1) 0 && ords.getD i 0 == ords.getD (i - 2) 0
      then
        if decide (i ≥ 3) && ords.getD i 0 == ords.getD (i - 3) 0 then 4 else 3
      else n)
    0

/-- Source `check_full_house`. -/
def check_full_house (hand : Hand) : Bool :=
  if check_pairs hand == 2 && check_n_of_a_kind hand == 3 then true else false

/-- Source `check_straight_flush`. -/
def check_straight_flush (hand : Hand) : Bool :=
  if check_flush hand && check_straight hand then true else false

/-- Source `check_royal_flush`. -/
def check_royal_flush (hand : Hand) : Bool :=
  let ords := get_ords hand
  if check_straight_flush hand && ords.getD 0 0 == 8 && ords.getD 4 0 == 12
  then true else false

/-- Source `score_poker`, the classification part: the result string and the
score.  The points update and the rendering that follow are not modelled. -/
def score_poker (hand : Hand) : String × Int :=
  let n_of_a_kind := check_n_of_a_kind hand
  let num_pairs := check_pairs hand
  if check_royal_flush hand then ("Royal Flush", 10000)
  else if check_straight_flush hand then ("Straight Flush", 1000)
  else if n_of_a_kind == 4 then ("Four of a Kind", 250)
  else if check_full_house hand then ("Full House", 200)
  else if check_flush hand then ("Flush", 150)
  else if check_straight hand then ("Straight", 100)
  else if n_of_a_kind == 3 then ("Three of a Kind", 50)
  else if num_pairs == 2 then ("Two Pair", 25)
  else if num_pairs == 1 then ("Pair", 10)
  else ("High Card", 0)

/-! ## Hand categories stated on rank multiplicities and suits

These definitions follow the wording of the specification and do not sort. -/

/-- The number of slots of the hand that hold rank `r`. -/
def occurrences (hand : Hand) (r : Int) : Nat := (hand_ords hand).count r

/-- All five cards share one suit. -/
def all_one_suit (hand : Hand) : Prop := ∀ i j : Fin 5, (hand i).suit = (hand j).suit

/-- The ranks of the hand are exactly `8, 9, 10, 11, 12` (ten to ace). -/
def ranks_ten_to_ace (hand : Hand) : Prop :=
  (∀ r ∈ hand_ords hand, 8 ≤ r ∧ r ≤ 12) ∧ ∀ r ∈ [(8 : Int), 9, 10, 11, 12], r ∈ hand_ords hand

/-- The ranks of the hand are five consecutive ordinals `k, k + 1, ..., k + 4`. -/
def five_consecutive (hand : Hand) : Prop :=
  ∃ k ∈ hand_ords hand, ∀ j ∈ [(0 : Int), 1, 2, 3, 4], k + j ∈ hand_ords hand

/-- Some rank occurs four times. -/
def four_of_a_kind (hand : Hand) : Prop :=
  ∃ r ∈ hand_ords hand, occurrences hand r = 4

/-- One rank occurs three times and another rank twice. -/
def full_house (hand : Hand) : Prop :=
  ∃ r ∈ hand_ords hand, ∃ s ∈ hand_ords hand,
    r ≠ s ∧ occurrences hand r = 3 ∧ occurrences hand s = 2

/-- Some rank occurs exactly three times. -/
def three_of_a_kind (hand : Hand) : Prop :=
  ∃ r ∈ hand_ords hand, occurrences hand r = 3

/-- Two distinct ranks each occur exactly twice. -/
def two_pair (hand : Hand) : Prop :=
  ∃ r ∈ hand_ords hand, ∃ s ∈ hand_ords hand,
    r ≠ s ∧ occurrences hand r = 2 ∧ occurrences hand s = 2

/-- Exactly one rank occurs exactly twice. -/
def one_pair (hand : Hand) : Prop :=
  ∃ r ∈ hand_ords hand, occurrences hand r = 2 ∧
    ∀ s ∈ hand_ords hand, occurrences hand s = 2 → s = r

instance (hand : Hand) : Decidable (all_one_suit hand) := by
  unfold all_one_suit; infer_instance

instance (hand : Hand) : Decidable (ranks_ten_to_ace hand) := by
  unfold ranks_ten_to_ace; infer_instance

instance (hand : Hand) : Decidable (five_consecutive hand) := by
  unfold five_consecutive; infer_instance

instance (hand : Hand) : Decidable (four_of_a_kind hand) := by
  unfold four_of_a_kind; infer_instance

instance (hand : Hand) : Decidable (full_house hand) := by
  unfold full_house; infer_instance

instance (hand : Hand) : Decidable (three_of_a_kind hand) := by
  unfold three_of_a_kind; infer_instance

instance (hand : Hand) : Decidable (two_pair hand) := by
  unfold two_pair; infer_instance

instance (hand : Hand) : Decidable (one_pair hand) := by
  unfold one_pair; infer_instance

/-- The category table of the specification: the first category, in the
stated order, whose condition holds, with its score. -/
def first_matching_category (hand : Hand) : String × Int :=
  if all_one_suit hand ∧ ranks_ten_to_ace hand then ("Royal Flush", 10000)
  else if all_one_suit hand ∧ five_consecutive hand then ("Straight Flush", 1000)
  else if four_of_a_kind hand then ("Four of a Kind", 250)
  else if full_house hand then ("Full House", 200)
  else if all_one_suit hand then ("Flush", 150)
  else if five_consecutive hand then ("Straight", 100)
  else if three_of_a_kind hand then ("Three of a Kind", 50)
  else if two_pair hand then ("Two Pair", 25)
  else if one_pair hand then ("Pair", 10)
  else ("High Card", 0)

/-! ## Deck -/

/-- The inner loop of `initialize_deck`: one card per value for suit `s`, the
ordinal `o` counting up from its start value. -/
def deck_row (s : Char) : List Char → Int → List card
  | [], _ => []
  | v :: vs, o => ⟨v, s, o⟩ :: deck_row s vs (o + 1)

/-- The deck `initialize_deck` builds before shuffling: for each suit, the
thirteen values with ordinals `0..12`. -/
def full_deck : List card := suits.flatMap (fun s => deck_row s vals 0)

/-! ## Environment and game state -/

/-- What one iteration of a polling loop reads from the environment. -/
structure Poll where
  /-- `GetKeyState(VK_SPACE) & 0x8000`, the first read of the iteration. -/
  space : Bool
  /-- The second read of the Space key, made by the `else if` of `deal_hand`. -/
  space_again : Bool
  /-- The digit keys `0..5` that are down (`GetKeyState(key) & 0x8000`). -/
  digits : List Nat
  /-- The random draws consumed by the shuffle of this iteration. -/
  picks : List Nat
deriving DecidableEq, Repr

/-- Why a run did not return normally. -/
inductive Stop where
  /-- An access outside the deck or the hand. -/
  | outOfBounds
  /-- A polling loop is still waiting and the recorded input is used up. -/
  | awaitingInput
  /-- The iteration budget of `redeal_cards` was used up (shown unreachable). -/
  | outOfFuel
deriving DecidableEq, Repr

/-- The global variables of the poker mode. -/
structure Game where
  deck : List card
  hand : Hand
  cards_to_deal : Int
  redeals_remaining : Int
  redeal_card_num : Int
  waiting : Bool
  key_pressed : Bool

/-- The library call `shuffle(deck.begin(), deck.end(), rng)`: a selection
shuffle.  Each draw picks, modulo the number of cards left, the next card of
the result; when the draws are used up the remaining cards keep their order. -/
def shuffle : List Nat → List card → List card
  | _, [] => []
  | [], c :: cs => c :: cs
  | p :: ps, c :: cs =>
    (c :: cs).getD (p % (cs.length + 1)) c ::
      shuffle ps ((c :: cs).eraseIdx (p % (cs.length + 1)))

/-- The read `deck[i]`. -/
def deck_at (deck : List card) (i : Int) : Except Stop card :=
  if 0 ≤ i then
    match deck.get? i.toNat with
    | some c => .ok c
    | none => .error .outOfBounds
  else .error .outOfBounds

/-- The call `deck.erase(deck.begin())`. -/
def deck_erase_begin : List card → Except Stop (List card)
  | [] => .error .outOfBounds
  | _ :: cs => .ok cs

/-- The read `hand[i]`. -/
def hand_at (hand : Hand) (i : Int) : Except Stop card :=
  if h : 0 ≤ i ∧ i < 5 then .ok (hand ⟨i.toNat, by omega⟩) else .error .outOfBounds

/-- The write `hand[i] = c`. -/
def hand_set (hand : Hand) (i : Int) (c : card) : Except Stop Hand :=
  if h : 0 ≤ i ∧ i < 5 then .ok (Function.update hand ⟨i.toNat, by omega⟩ c)
  else .error .outOfBounds

/-! ## Dealing and re-dealing -/

/-- Source `initialize_deck`: build the 52 cards, then shuffle. -/
def initialize_deck (g : Game) (picks : List Nat) : Game :=
  { g with deck := shuffle picks full_deck }

/-- Source `deal_cards`: for `i` from `5 - cards_to_deal` up to `4`,
`hand[i] = deck[i - (5 - cards_to_deal)]`. -/
def deal_cards (g : Game) : Except Stop Game :=
  (List.range g.cards_to_deal.toNat).foldlM
    (fun g (k : Nat) => do
      let i : Int := (5 - g.cards_to_deal) + (k : Int)
      let c ← deck_at g.deck (i - (5 - g.cards_to_deal))
      let hand ← hand_set g.hand i c
      pure { g with hand := hand })
    g

/-- One iteration of the `while` loop of `deal_hand`. -/
def deal_hand_iter (g : Game) (p : Poll) : Except Stop Game := do
  let g ← deal_cards g
  let g ←
    if p.space && !g.key_pressed then do
      let deck ← deck_erase_begin g.deck
      pure { g with key_pressed := true, deck := deck, cards_to_deal := g.cards_to_deal - 1 }
    else if !p.space_again && g.key_pressed then
      pure { g with key_pressed := false }
    else pure g
  pure { g with deck := shuffle p.picks g.deck }

/-- Source `deal_hand`: iterate while `cards_to_deal > 0`, one poll per
iteration.  Returns the state and the unread polls. -/
def deal_hand : Game → List Poll → Except Stop (Game × List Poll)
  | g, [] => if g.cards_to_deal > 0 then .error .awaitingInput else .ok (g, [])
  | g, p :: ps =>
    if g.cards_to_deal > 0 then
      (deal_hand_iter g p).bind (fun g1 => deal_hand g1 ps)
    else .ok (g, p :: ps)

/-- One iteration of the `while (waiting)` loop of `redeal_card` for the slot
index `idx`: shuffle, copy `deck[0]` into the slot, and on Space leave the loop
and erase the front card. -/
def redeal_card_iter (idx : Int) (g : Game) (p : Poll) : Except Stop Game := do
  let deck := shuffle p.picks g.deck
  let c ← deck_at deck 0
  let hand ← hand_set g.hand idx c
  if p.space then do
    let deck1 ← deck_erase_begin deck
    pure { g with deck := deck1, hand := hand, waiting := false }
  else pure { g with deck := deck, hand := hand }

/-- The `while (waiting)` loop of `redeal_card`. -/
def redeal_card_loop (idx : Int) : Game → List Poll → Except Stop (Game × List Poll)
  | g, [] => if g.waiting then .error .awaitingInput else .ok (g, [])
  | g, p :: ps =>
    if g.waiting then
      (redeal_card_iter idx g p).bind (fun g1 => redeal_card_loop idx g1 ps)
    else .ok (g, p :: ps)

/-- Source `redeal_card`: remember the card of the selected slot, run the
preview loop until Space, then append the remembered card to the deck. -/
def redeal_card (g : Game) (ps : List Poll) : Except Stop (Game × List Poll) := do
  let redeal_card_index := g.redeal_card_num - 1
  let discard ← hand_at g.hand redeal_card_index
  let (g1, rest) ← redeal_card_loop redeal_card_index { g with waiting := true } ps
  pure ({ g1 with deck := g1.deck ++ [discard] }, rest)

/-- One iteration of the selection loop of `redeal_cards`: for `i` from `0` to
`5`, a digit key that is down sets `redeal_card_num` and clears `waiting`. -/
def select_iter (g : Game) (p : Poll) : Game :=
  (List.range 6).foldl
    (fun g (i : Nat) =>
      if p.digits.contains i then { g with redeal_card_num := (i : Int), waiting := false }
      else g)
    g

/-- The selection loop `while (waiting)` of `redeal_cards`. -/
def select_loop : Game → List Poll → Except Stop (Game × List Poll)
  | g, [] => if g.waiting then .error .awaitingInput else .ok (g, [])
  | g, p :: ps =>
    if g.waiting then select_loop (select_iter g p) ps else .ok (g, p :: ps)

/-- The body of the outer loop of `redeal_cards`: prompt, selection, then
either the budget is set to `0` or one card is re-dealt and the budget drops
by one.  The last component counts the calls of `redeal_card` (0 or 1). -/
def redeal_cards_iter (g : Game) (ps : List Poll) : Except Stop (Game × List Poll × Nat) := do
  let (g1, ps1) ← select_loop { g with waiting := true } ps
  if g1.redeal_card_num == 0 then
    pure ({ g1 with redeals_remaining := 0 }, ps1, 0)
  else do
    let (g2, ps2) ← redeal_card g1 ps1
    pure ({ g2 with redeals_remaining := g2.redeals_remaining - 1 }, ps2, 1)

/-- The outer loop of `redeal_cards` with an iteration budget.  The last
component of the result is the number of calls of `redeal_card` made. -/
def redeal_cards_loop : Nat → Game → List Poll → Except Stop (Game × List Poll × Nat)
  | fuel, g, ps =>
    if g.redeals_remaining > 0 then
      match fuel with
      | 0 => .error .outOfFuel
      | fuel1 + 1 => do
        let (g1, ps1, k1) ← redeal_cards_iter g ps
        let (g2, ps2, k2) ← redeal_cards_loop fuel1 g1 ps1
        pure (g2, ps2, k1 + k2)
    else .ok (g, ps, 0)

/-- Source `redeal_cards`.  Every iteration lowers `redeals_remaining`, so its
starting value is a sufficient iteration budget. -/
def redeal_cards (g : Game) (ps : List Poll) : Except Stop (Game × List Poll × Nat) :=
  redeal_cards_loop g.redeals_remaining.toNat g ps

/-- Source `play_poker`: reset the counters, build and shuffle the deck, deal,
re-deal and score.  Returns the final state, the result of `score_poker` and
the unread polls. -/
def play_poker (g : Game) (picks : List Nat) (ps : List Poll) :
    Except Stop (Game × (String × Int) × List Poll) := do
  let g0 := initialize_deck { g with cards_to_deal := 5, redeals_remaining := 5 } picks
  let (g1, ps1) ← deal_hand g0 ps
  let (g2, ps2, _) ← redeal_cards g1 ps1
  pure (g2, score_poker g2.hand, ps2)

/-! ## Invariants -/

/-- The cards in the first `s` slots of a hand, in slot order. -/
def first_slots (hand : Hand) (s : Nat) : List card :=
  ((List.finRange 5).filter (fun j => decide (j.val < s))).map hand

/-- The slots already fixed by `deal_hand`: the first `5 - cards_to_deal`. -/
def committed (g : Game) : List card :=
  first_slots g.hand (5 - g.cards_to_deal).toNat

/-- During dealing: the committed slots followed by the deck are a
rearrangement of the 52 cards, so each card occurs exactly once in them. -/
def deal_invariant (g : Game) : Prop :=
  0 ≤ g.cards_to_deal ∧ g.cards_to_deal ≤ 5 ∧ (committed g ++ g.deck).Perm full_deck

/-- After dealing: the five slots followed by the deck are a rearrangement of
the 52 cards, so each card occurs exactly once in them. -/
def hand_deck_invariant (g : Game) : Prop :=
  (hand_cards g.hand ++ g.deck).Perm full_deck

/-- The hand after the first `k` iterations of the loop of `deal_cards`: the
slots `5 - cards_to_deal + j` for `j < k` hold `deck[j]`. -/
def dealt_hand (g : Game) (k : Nat) : Hand := fun j =>
  if (5 - g.cards_to_deal).toNat ≤ j.val ∧ j.val < (5 - g.cards_to_deal).toNat + k then
    g.deck.getD (j.val - (5 - g.cards_to_deal).toNat) default
  else g.hand j

/-! ## Sample states and inputs -/

/-- A state as `deal_hand` leaves it: the first five cards of the unshuffled
deck in the hand, the other 47 in the deck, Space still down (`key_pressed`). -/
def sample_dealt : Game :=
  { deck := full_deck.drop 5
    hand := fun i => full_deck.getD i.val default
    cards_to_deal := 0
    redeals_remaining := 5
    redeal_card_num := 0
    waiting := false
    key_pressed := true }

/-- A poll with Space down and the digit keys `digits` down; the shuffle of the
poll uses the draws `picks`. -/
def space_down (digits picks : List Nat) : Poll :=
  { space := true, space_again := true, digits := digits, picks := picks }

/-- A poll with Space up and the digit keys `digits` down. -/
def space_up (digits picks : List Nat) : Poll :=
  { space := false, space_again := false, digits := digits, picks := picks }

/-- A recorded input that plays a whole round whatever the starting state:
five times Space up then Space down, then the digit `0`. -/
def sample_round : List Poll :=
  [space_up [] [], space_down [] [], space_up [] [], space_down [] [], space_up [] [],
   space_down [] [], space_up [] [], space_down [] [], space_up [] [], space_down [] [],
   space_up [0] []]

/-- The hand 7♦ 7♣ K♥ K♠ 9♦. -/
def sample_two_pair : Hand :=
  ![⟨'7', 'D', 5⟩, ⟨'7', 'C', 5⟩, ⟨'K', 'H', 11⟩, ⟨'K', 'S', 11⟩, ⟨'9', 'D', 7⟩]

/-- The hand T♣ J♣ Q♣ K♣ A♣. -/
def sample_royal_flush : Hand :=
  ![⟨'T', 'C', 8⟩, ⟨'J', 'C', 9⟩, ⟨'Q', 'C', 10⟩, ⟨'K', 'C', 11⟩, ⟨'A', 'C', 12⟩]

/-- The hand 4♦ 4♣ 4♥ 4♠ 9♦. -/
def sample_four_of_a_kind : Hand :=
  ![⟨'4', 'D', 2⟩, ⟨'4', 'C', 2⟩, ⟨'4', 'H', 2⟩, ⟨'4', 'S', 2⟩, ⟨'9', 'D', 7⟩]

/-- A state of `deal_hand` with four slots committed and one card to deal:
the first four cards of the unshuffled deck in slots `0..3`, the other 48 in
the deck, Space up at the previous poll. -/
def sample_dealing : Game :=
  { deck := full_deck.drop 4
    hand := fun i => full_deck.getD i.val default
    cards_to_deal := 1
    redeals_remaining := 5
    redeal_card_num := 0
    waiting := false
    key_pressed := false }

/-! ## The advance signal of `deal_hand` -/

/-- The condition of the first `if` of `deal_hand`: Space is down and
`key_pressed` is false.  A poll on which it holds deals a card. -/
def deals_card (key_pressed : Bool) (p : Poll) : Bool :=
  p.space && !key_pressed

/-- The value of `key_pressed` after one iteration of `deal_hand`, following
its `if` / `else if`. -/
def key_pressed_after (key_pressed : Bool) (p : Poll) : Bool :=
  if p.space && !key_pressed then true
  else if !p.space_again && key_pressed then false
  else key_pressed

/-- The number of polls of the list that deal a card, `key_pressed` being
updated after every poll. -/
def deal_events : Bool → List Poll → Nat
  | _, [] => 0
  | key_pressed, p :: ps =>
    (if deals_card key_pressed p then 1 else 0) +
      deal_events (key_pressed_after key_pressed p) ps

/-! # Theorems -/

/-! ## Sorted ordinals -/

/-- Sorting a list of five integers gives five ascending values that are a
permutation of the list. -/
theorem sort_five (l : List Int) (hl : l.length = 5) :
    ∃ a b c d e, l.insertionSort (· ≤ ·) = [a, b, c, d, e] ∧
      a ≤ b ∧ b ≤ c ∧ c ≤ d ∧ d ≤ e ∧ [a, b, c, d, e].Perm l := by
  have hs := List.sorted_insertionSort (· ≤ ·) l
  have hp := List.perm_insertionSort (· ≤ ·) l
  have hlen : (l.insertionSort (· ≤ ·)).length = 5 := by
    rw [List.length_insertionSort, hl]
  generalize l.insertionSort (· ≤ ·) = s at hs hp hlen
  match s, hlen with
  | [a, b, c, d, e], _ =>
    refine ⟨a, b, c, d, e, rfl, ?_, ?_, ?_, ?_, hp⟩ <;>
    simp [List.Sorted] at hs <;> omega

theorem hand_ords_length (hand : Hand) : (hand_ords hand).length = 5 := by
  simp [hand_ords]

/-- The sorted ordinals of a hand: five ascending values, a permutation of the
ordinals in slot order. -/
theorem get_ords_sorted (hand : Hand) :
    ∃ a b c d e, get_ords hand = [a, b, c, d, e] ∧
      a ≤ b ∧ b ≤ c ∧ c ≤ d ∧ d ≤ e ∧ [a, b, c, d, e].Perm (hand_ords hand) :=
  sort_five (hand_ords hand) (hand_ords_length hand)

/-- An ascending list that is a permutation of the hand's ordinals is what
`get_ords` returns. -/
theorem get_ords_unique (hand : Hand) (l : List Int) (hs : l.Sorted (· ≤ ·))
    (hp : l.Perm (hand_ords hand)) : get_ords hand = l := by
  unfold get_ords
  exact List.eq_of_perm_of_sorted ((List.perm_insertionSort _ _).trans hp.symm)
    (List.sorted_insertionSort _ _) hs

theorem count_five (a b c d e r : Int) :
    [a, b, c, d, e].count r =
      (if a = r then 1 else 0) + (if b = r then 1 else 0) + (if c = r then 1 else 0)
        + (if d = r then 1 else 0) + (if e = r then 1 else 0) := by
  simp only [List.count_cons, List.count_nil, beq_iff_eq]
  omega

theorem count_five_eq_two (a b c d e r : Int)
    (h1 : a ≤ b) (h2 : b ≤ c) (h3 : c ≤ d) (h4 : d ≤ e) :
    [a, b, c, d, e].count r = 2 ↔
      (r = a ∧ a = b ∧ b ≠ c) ∨ (r = b ∧ a ≠ b ∧ b = c ∧ c ≠ d) ∨
      (r = c ∧ b ≠ c ∧ c = d ∧ d ≠ e) ∨ (r = d ∧ c ≠ d ∧ d = e) := by
  rw [count_five]
  split_ifs <;> omega

theorem count_five_eq_three (a b c d e r : Int)
    (h1 : a ≤ b) (h2 : b ≤ c) (h3 : c ≤ d) (h4 : d ≤ e) :
    [a, b, c, d, e].count r = 3 ↔
      (r = a ∧ a = c ∧ c ≠ d) ∨ (r = b ∧ a ≠ b ∧ b = d ∧ d ≠ e) ∨
      (r = c ∧ b ≠ c ∧ c = e) := by
  rw [count_five]
  split_ifs <;> omega

theorem count_five_eq_four (a b c d e r : Int)
    (h1 : a ≤ b) (h2 : b ≤ c) (h3 : c ≤ d) (h4 : d ≤ e) :
    [a, b, c, d, e].count r = 4 ↔
      (r = a ∧ a = d ∧ d ≠ e) ∨ (r = b ∧ a ≠ b ∧ b = e) := by
  rw [count_five]
  split_ifs <;> omega

/-! ## The checks in closed form on the sorted ordinals -/

theorem check_straight_closed (hand : Hand) (a b c d e : Int)
    (h : get_ords hand = [a, b, c, d, e]) :
    check_straight hand = true ↔ b = a + 1 ∧ c = b + 1 ∧ d = c + 1 ∧ e = d + 1 := by
  simp [check_straight, h]

theorem check_n_of_a_kind_closed (hand : Hand) (a b c d e : Int)
    (h : get_ords hand = [a, b, c, d, e]) :
    check_n_of_a_kind hand =
      if e = d ∧ e = c then (if e = b then 4 else 3)
      else if d = c ∧ d = b then (if d = a then 4 else 3)
      else if c = b ∧ c = a then 3 else 0 := by
  simp [check_n_of_a_kind, h]

theorem check_pairs_closed (hand : Hand) (a b c d e : Int)
    (h : get_ords hand = [a, b, c, d, e]) :
    check_pairs hand =
      (if b = a then 1 else 0) + (if c = b ∧ ¬ c = a then 1 else 0)
        + (if d = c ∧ ¬ d = b then 1 else 0) + (if e = d ∧ ¬ e = c then 1 else 0) := by
  simp only [check_pairs, h, List.foldl_cons, List.foldl_nil, List.getD_cons_zero,
    List.getD_cons_succ]
  simp
  split_ifs <;> omega

theorem check_n_of_a_kind_eq_four (hand : Hand) (a b c d e : Int)
    (h : get_ords hand = [a, b, c, d, e])
    (h1 : a ≤ b) (_h2 : b ≤ c) (_h3 : c ≤ d) (h4 : d ≤ e) :
    check_n_of_a_kind hand = 4 ↔ (a = b ∧ b = c ∧ c = d) ∨ (b = c ∧ c = d ∧ d = e) := by
  rw [check_n_of_a_kind_closed hand a b c d e h]
  split_ifs <;> omega

theorem check_n_of_a_kind_eq_three (hand : Hand) (a b c d e : Int)
    (h : get_ords hand = [a, b, c, d, e])
    (h1 : a ≤ b) (h2 : b ≤ c) (h3 : c ≤ d) (h4 : d ≤ e) :
    check_n_of_a_kind hand = 3 ↔
      (a = b ∧ b = c ∧ c ≠ d) ∨ (a ≠ b ∧ b = c ∧ c = d ∧ d ≠ e) ∨ (b ≠ c ∧ c = d ∧ d = e) := by
  rw [check_n_of_a_kind_closed hand a b c d e h]
  split_ifs <;> omega

theorem check_n_of_a_kind_values (hand : Hand) :
    check_n_of_a_kind hand = 0 ∨ check_n_of_a_kind hand = 3 ∨ check_n_of_a_kind hand = 4 := by
  obtain ⟨a, b, c, d, e, h, -⟩ := get_ords_sorted hand
  rw [check_n_of_a_kind_closed hand a b c d e h]
  split_ifs <;> simp

theorem check_pairs_eq_two (hand : Hand) (a b c d e : Int)
    (h : get_ords hand = [a, b, c, d, e])
    (h1 : a ≤ b) (h2 : b ≤ c) (h3 : c ≤ d) (h4 : d ≤ e) :
    check_pairs hand = 2 ↔
      (a = b ∧ b ≠ c ∧ c = d) ∨ (a = b ∧ c ≠ d ∧ d = e) ∨ (a ≠ b ∧ b = c ∧ c ≠ d ∧ d = e) := by
  rw [check_pairs_closed hand a b c d e h]
  split_ifs <;> omega

theorem check_pairs_eq_one (hand : Hand) (a b c d e : Int)
    (h : get_ords hand = [a, b, c, d, e])
    (h1 : a ≤ b) (h2 : b ≤ c) (h3 : c ≤ d) (h4 : d ≤ e) :
    check_pairs hand = 1 ↔
      (a = b ∧ (b = c ∨ c ≠ d) ∧ (c = d ∨ d ≠ e)) ∨
      (a ≠ b ∧ b = c ∧ (c = d ∨ d ≠ e)) ∨
      (a ≠ b ∧ b ≠ c ∧ (c = d ∨ d = e)) := by
  rw [check_pairs_closed hand a b c d e h]
  split_ifs <;> omega

/-! ## The categories on the sorted ordinals -/

theorem check_flush_iff (hand : Hand) : check_flush hand = true ↔ all_one_suit hand := by
  unfold all_one_suit
  simp only [check_flush, List.all_cons, List.all_nil, Bool.and_true, Bool.and_eq_true,
    beq_iff_eq]
  constructor
  · rintro ⟨h1, h2, h3, h4⟩ i j
    have e1 : (hand 1).suit = (hand 0).suit := h1
    have e2 : (hand 2).suit = (hand 0).suit := h2.trans e1
    have e3 : (hand 3).suit = (hand 0).suit := h3.trans e2
    have e4 : (hand 4).suit = (hand 0).suit := h4.trans e3
    fin_cases i <;> fin_cases j <;> simp_all
  · intro h
    exact ⟨h _ _, h _ _, h _ _, h _ _⟩

theorem occurrences_eq (hand : Hand) (l : List Int) (hp : l.Perm (hand_ords hand)) (r : Int) :
    occurrences hand r = l.count r := by
  unfold occurrences
  exact hp.symm.count_eq r

theorem four_of_a_kind_sorted (hand : Hand) (a b c d e : Int)
    (hp : [a, b, c, d, e].Perm (hand_ords hand))
    (h1 : a ≤ b) (h2 : b ≤ c) (h3 : c ≤ d) (h4 : d ≤ e) :
    four_of_a_kind hand ↔
      (a = b ∧ b = c ∧ c = d ∧ d ≠ e) ∨ (a ≠ b ∧ b = c ∧ c = d ∧ d = e) := by
  unfold four_of_a_kind
  simp only [occurrences_eq hand _ hp, ← hp.mem_iff, count_five_eq_four a b c d e _ h1 h2 h3 h4]
  constructor
  · rintro ⟨r, -, h⟩
    omega
  · rintro (h | h)
    · exact ⟨a, by simp, by omega⟩
    · exact ⟨b, by simp, by omega⟩

theorem three_of_a_kind_sorted (hand : Hand) (a b c d e : Int)
    (hp : [a, b, c, d, e].Perm (hand_ords hand))
    (h1 : a ≤ b) (h2 : b ≤ c) (h3 : c ≤ d) (h4 : d ≤ e) :
    three_of_a_kind hand ↔
      (a = b ∧ b = c ∧ c ≠ d) ∨ (a ≠ b ∧ b = c ∧ c = d ∧ d ≠ e) ∨ (b ≠ c ∧ c = d ∧ d = e) := by
  unfold three_of_a_kind
  simp only [occurrences_eq hand _ hp, ← hp.mem_iff, count_five_eq_three a b c d e _ h1 h2 h3 h4]
  constructor
  · rintro ⟨r, -, h⟩
    omega
  · rintro (h | h | h)
    · exact ⟨a, by simp, by omega⟩
    · exact ⟨b, by simp, by omega⟩
    · exact ⟨c, by simp, by omega⟩

theorem full_house_sorted (hand : Hand) (a b c d e : Int)
    (hp : [a, b, c, d, e].Perm (hand_ords hand))
    (h1 : a ≤ b) (h2 : b ≤ c) (h3 : c ≤ d) (h4 : d ≤ e) :
    full_house hand ↔
      (a = b ∧ b = c ∧ c ≠ d ∧ d = e) ∨ (a = b ∧ b ≠ c ∧ c = d ∧ d = e) := by
  unfold full_house
  simp only [occurrences_eq hand _ hp, ← hp.mem_iff, count_five_eq_three a b c d e _ h1 h2 h3 h4,
    count_five_eq_two a b c d e _ h1 h2 h3 h4]
  constructor
  · rintro ⟨r, -, s, -, h⟩
    omega
  · rintro (h | h)
    · exact ⟨a, by simp, d, by simp, by omega⟩
    · exact ⟨c, by simp, a, by simp, by omega⟩

theorem two_pair_sorted (hand : Hand) (a b c d e : Int)
    (hp : [a, b, c, d, e].Perm (hand_ords hand))
    (h1 : a ≤ b) (h2 : b ≤ c) (h3 : c ≤ d) (h4 : d ≤ e) :
    two_pair hand ↔
      (a = b ∧ b ≠ c ∧ c = d ∧ d ≠ e) ∨ (a = b ∧ b ≠ c ∧ c ≠ d ∧ d = e) ∨
      (a ≠ b ∧ b = c ∧ c ≠ d ∧ d = e) := by
  unfold two_pair
  simp only [occurrences_eq hand _ hp, ← hp.mem_iff, count_five_eq_two a b c d e _ h1 h2 h3 h4]
  constructor
  · rintro ⟨r, -, s, -, h⟩
    omega
  · rintro (h | h | h)
    · exact ⟨a, by simp, c, by simp, by omega⟩
    · exact ⟨a, by simp, d, by simp, by omega⟩
    · exact ⟨b, by simp, d, by simp, by omega⟩

theorem one_pair_sorted (hand : Hand) (a b c d e : Int)
    (hp : [a, b, c, d, e].Perm (hand_ords hand))
    (h1 : a ≤ b) (h2 : b ≤ c) (h3 : c ≤ d) (h4 : d ≤ e) :
    one_pair hand ↔
      (a = b ∧ b ≠ c ∧ (c ≠ d ∨ d = e) ∧ (d ≠ e ∨ c = d)) ∨
      (a ≠ b ∧ b = c ∧ c ≠ d ∧ d ≠ e) ∨
      (a ≠ b ∧ b ≠ c ∧ c = d ∧ d ≠ e) ∨
      (((a = b ∧ b = c) ∨ (a ≠ b ∧ b ≠ c)) ∧ c ≠ d ∧ d = e) := by
  unfold one_pair
  simp only [occurrences_eq hand _ hp, ← hp.mem_iff, count_five_eq_two a b c d e _ h1 h2 h3 h4]
  constructor
  · rintro ⟨r, -, h, hu⟩
    have ha : a = b ∧ b ≠ c → a = r := fun k => hu a (by simp) (Or.inl ⟨rfl, k⟩)
    have hb : a ≠ b ∧ b = c ∧ c ≠ d → b = r := fun k => hu b (by simp) (Or.inr (Or.inl ⟨rfl, k⟩))
    have hc : b ≠ c ∧ c = d ∧ d ≠ e → c = r :=
      fun k => hu c (by simp) (Or.inr (Or.inr (Or.inl ⟨rfl, k⟩)))
    have hd : c ≠ d ∧ d = e → d = r :=
      fun k => hu d (by simp) (Or.inr (Or.inr (Or.inr ⟨rfl, k⟩)))
    clear hu
    rcases h with h | h | h | h <;> omega
  · rintro (h | h | h | h)
    · exact ⟨a, by simp, by omega, fun s _ hs => by rcases hs with hs | hs | hs | hs <;> omega⟩
    · exact ⟨b, by simp, by omega, fun s _ hs => by rcases hs with hs | hs | hs | hs <;> omega⟩
    · exact ⟨c, by simp, by omega, fun s _ hs => by rcases hs with hs | hs | hs | hs <;> omega⟩
    · exact ⟨d, by simp, by omega, fun s _ hs => by rcases hs with hs | hs | hs | hs <;> omega⟩

theorem five_consecutive_iff (hand : Hand) :
    five_consecutive hand ↔ ∃ k, get_ords hand = [k, k + 1, k + 2, k + 3, k + 4] := by
  constructor
  · rintro ⟨k, -, hk⟩
    refine ⟨k, get_ords_unique hand _ ?_ ?_⟩
    · simp [List.Sorted]
    · have hsub : [k, k + 1, k + 2, k + 3, k + 4] ⊆ hand_ords hand := by
        intro x hx
        simp only [List.mem_cons, List.mem_singleton, List.not_mem_nil, or_false] at hx
        rcases hx with rfl | rfl | rfl | rfl | rfl
        · simpa using hk 0 (by simp)
        · exact hk 1 (by simp)
        · exact hk 2 (by simp)
        · exact hk 3 (by simp)
        · exact hk 4 (by simp)
      have hnd : [k, k + 1, k + 2, k + 3, k + 4].Nodup := by
        simp
      exact (List.subperm_of_subset hnd hsub).perm_of_length_le
        (by simp [hand_ords_length])
  · rintro ⟨k, hk⟩
    have hp : [k, k + 1, k + 2, k + 3, k + 4].Perm (hand_ords hand) := by
      rw [← hk]
      exact List.perm_insertionSort _ _
    refine ⟨k, hp.mem_iff.mp (by simp), ?_⟩
    intro j hj
    apply hp.mem_iff.mp
    simp only [List.mem_cons, List.mem_singleton, List.not_mem_nil, or_false] at hj
    rcases hj with rfl | rfl | rfl | rfl | rfl <;> simp

theorem ranks_ten_to_ace_iff (hand : Hand) :
    ranks_ten_to_ace hand ↔ get_ords hand = [8, 9, 10, 11, 12] := by
  constructor
  · rintro ⟨-, hk⟩
    refine get_ords_unique hand _ (by simp [List.Sorted]) ?_
    have hsub : [(8 : Int), 9, 10, 11, 12] ⊆ hand_ords hand := fun x hx => hk x hx
    exact (List.subperm_of_subset (by decide) hsub).perm_of_length_le
      (by simp [hand_ords_length])
  · intro hk
    have hp : [(8 : Int), 9, 10, 11, 12].Perm (hand_ords hand) := by
      rw [← hk]
      exact List.perm_insertionSort _ _
    refine ⟨fun r hr => ?_, fun r hr => hp.mem_iff.mp hr⟩
    have := hp.mem_iff.mpr hr
    simp only [List.mem_cons, List.mem_singleton, List.not_mem_nil, or_false] at this
    omega

theorem check_straight_iff (hand : Hand) : check_straight hand = true ↔ five_consecutive hand := by
  obtain ⟨a, b, c, d, e, h, -⟩ := get_ords_sorted hand
  rw [check_straight_closed hand a b c d e h, five_consecutive_iff, h]
  constructor
  · rintro ⟨rfl, rfl, rfl, rfl⟩
    exact ⟨a, by simp; omega⟩
  · rintro ⟨k, hk⟩
    simp only [List.cons.injEq, and_true] at hk
    omega

theorem check_straight_flush_iff (hand : Hand) :
    check_straight_flush hand = true ↔ all_one_suit hand ∧ five_consecutive hand := by
  simp [check_straight_flush, check_flush_iff, check_straight_iff]

theorem check_royal_flush_iff (hand : Hand) :
    check_royal_flush hand = true ↔ all_one_suit hand ∧ ranks_ten_to_ace hand := by
  obtain ⟨a, b, c, d, e, h, -⟩ := get_ords_sorted hand
  simp only [check_royal_flush, check_straight_flush, Bool.and_eq_true, beq_iff_eq,
    ranks_ten_to_ace_iff, check_flush_iff, check_straight_closed hand a b c d e h, h,
    List.getD_cons_zero, List.getD_cons_succ, Bool.if_true_left, Bool.or_false,
    Bool.and_eq_true, decide_eq_true_eq, Bool.decide_and,
    List.cons.injEq, and_true, ite_eq_left_iff, Bool.not_eq_true, Bool.and_eq_false_imp]
  constructor
  · rintro ⟨⟨⟨hf, hs⟩, h8⟩, h12⟩
    exact ⟨hf, by omega⟩
  · rintro ⟨hf, hs⟩
    exact ⟨⟨⟨hf, by omega⟩, by omega⟩, by omega⟩

/-! ## Hands drawn from the deck -/

theorem full_deck_ord_range : ∀ c ∈ full_deck, 0 ≤ c.ord ∧ c.ord ≤ 12 := by
  decide

theorem full_deck_rank_count (r : Int) :
    (full_deck.filter (fun c => c.ord = r)).length ≤ 4 := by
  by_cases hr : 0 ≤ r ∧ r ≤ 12
  · obtain ⟨h0, h12⟩ := hr
    interval_cases r <;> decide
  · have : full_deck.filter (fun c => c.ord = r) = [] := by
      rw [List.filter_eq_nil_iff]
      intro c hc
      have := full_deck_ord_range c hc
      simp only [decide_eq_true_eq]
      omega
    simp [this]

/-- Five distinct cards of the deck do not all have the same rank. -/
theorem distinct_deck_hand_not_five_equal (hand : Hand)
    (hnd : (hand_cards hand).Nodup) (hdeck : ∀ c ∈ hand_cards hand, c ∈ full_deck)
    (a b c d e : Int) (hp : [a, b, c, d, e].Perm (hand_ords hand))
    (h1 : a ≤ b) (h2 : b ≤ c) (h3 : c ≤ d) (h4 : d ≤ e) : a ≠ e := by
  intro hae
  have hall : ∀ i, (hand i).ord = a := by
    intro i
    have hm : (hand i).ord ∈ hand_ords hand := by
      unfold hand_ords
      exact (List.mem_ofFn _ _).mpr ⟨i, rfl⟩
    have := hp.mem_iff.mpr hm
    simp only [List.mem_cons, List.mem_singleton, List.not_mem_nil, or_false] at this
    omega
  have hsub : hand_cards hand ⊆ full_deck.filter (fun c => c.ord = a) := by
    intro x hx
    obtain ⟨i, rfl⟩ := (List.mem_ofFn _ _).mp hx
    exact List.mem_filter.mpr ⟨hdeck _ hx, by simp [hall i]⟩
  have hlen := (List.subperm_of_subset hnd hsub).length_le
  have h5 : (hand_cards hand).length = 5 := by simp [hand_cards]
  have := full_deck_rank_count a
  omega

theorem score_poker_eq_of_sorted (hand : Hand) (a b c d e : Int)
    (h : get_ords hand = [a, b, c, d, e]) (hp : [a, b, c, d, e].Perm (hand_ords hand))
    (h1 : a ≤ b) (h2 : b ≤ c) (h3 : c ≤ d) (h4 : d ≤ e) (hae : a ≠ e) :
    score_poker hand = first_matching_category hand := by
  have hst : five_consecutive hand ↔ b = a + 1 ∧ c = b + 1 ∧ d = c + 1 ∧ e = d + 1 := by
    rw [← check_straight_iff, check_straight_closed hand a b c d e h]
  have hro : ranks_ten_to_ace hand ↔ a = 8 ∧ b = 9 ∧ c = 10 ∧ d = 11 ∧ e = 12 := by
    rw [ranks_ten_to_ace_iff, h]
    simp
  simp only [score_poker, first_matching_category, check_royal_flush_iff,
    check_straight_flush_iff, check_flush_iff, check_straight_iff, check_full_house,
    beq_iff_eq, Bool.and_eq_true,
    check_n_of_a_kind_eq_four hand a b c d e h h1 h2 h3 h4,
    check_n_of_a_kind_eq_three hand a b c d e h h1 h2 h3 h4,
    check_pairs_eq_two hand a b c d e h h1 h2 h3 h4,
    check_pairs_eq_one hand a b c d e h h1 h2 h3 h4,
    four_of_a_kind_sorted hand a b c d e hp h1 h2 h3 h4,
    three_of_a_kind_sorted hand a b c d e hp h1 h2 h3 h4,
    full_house_sorted hand a b c d e hp h1 h2 h3 h4,
    two_pair_sorted hand a b c d e hp h1 h2 h3 h4,
    one_pair_sorted hand a b c d e hp h1 h2 h3 h4, hst, hro,
    Bool.if_true_left, Bool.or_false, decide_eq_true_eq, Bool.decide_eq_true,
    ite_eq_left_iff, Bool.not_eq_true, Bool.if_false_right, Bool.and_true]
  have hne : ¬(a = b ∧ b = c ∧ c = d ∧ d = e) := by omega
  by_cases hS : (b = a + 1 ∧ c = b + 1 ∧ d = c + 1 ∧ e = d + 1)
  · have p1 : (a = b) = False := eq_false (by omega)
    have p2 : (b = c) = False := eq_false (by omega)
    have p3 : (c = d) = False := eq_false (by omega)
    have p4 : (d = e) = False := eq_false (by omega)
    replace hS := eq_true hS
    by_cases hR : (a = 8 ∧ b = 9 ∧ c = 10 ∧ d = 11 ∧ e = 12) <;>
    by_cases hF : all_one_suit hand
    all_goals
      first | replace hF := eq_false hF | replace hF := eq_true hF
      first | replace hR := eq_false hR | replace hR := eq_true hR
      simp only [hF, hS, hR, p1, p2, p3, p4, ne_eq]
      simp
  · have hR : (a = 8 ∧ b = 9 ∧ c = 10 ∧ d = 11 ∧ e = 12) = False := eq_false (by omega)
    replace hS := eq_false hS
    by_cases p1 : a = b <;> by_cases p2 : b = c <;> by_cases p3 : c = d <;>
    by_cases p4 : d = e <;> by_cases hF : all_one_suit hand <;>
    first
    | omega
    | skip
    all_goals
      first | replace hF := eq_false hF | replace hF := eq_true hF
      first | replace p1 := eq_false p1 | replace p1 := eq_true p1
      first | replace p2 := eq_false p2 | replace p2 := eq_true p2
      first | replace p3 := eq_false p3 | replace p3 := eq_true p3
      first | replace p4 := eq_false p4 | replace p4 := eq_true p4
      simp only [hF, hS, hR, p1, p2, p3, p4, ne_eq]
      simp

/-- C1. For every hand of five distinct cards of the 52-card deck,
`score_poker` yields the first category of the specification's table whose
rank-multiplicity and suit condition holds, with its score. -/
theorem score_poker_first_match (hand : Hand)
    (hnd : (hand_cards hand).Nodup) (hdeck : ∀ c ∈ hand_cards hand, c ∈ full_deck) :
    score_poker hand = first_matching_category hand := by
  obtain ⟨a, b, c, d, e, h, h1, h2, h3, h4, hp⟩ := get_ords_sorted hand
  exact score_poker_eq_of_sorted hand a b c d e h hp h1 h2 h3 h4
    (distinct_deck_hand_not_five_equal hand hnd hdeck a b c d e hp h1 h2 h3 h4)

/-! ## Reordering the slots -/

theorem get_ords_comp_perm (hand : Hand) (p : Equiv.Perm (Fin 5)) :
    get_ords (hand ∘ p) = get_ords hand := by
  have hp : (hand_ords (hand ∘ p)).Perm (hand_ords hand) :=
    Equiv.Perm.ofFn_comp_perm p (fun i => (hand i).ord)
  unfold get_ords
  exact List.eq_of_perm_of_sorted
    (((List.perm_insertionSort _ _).trans hp).trans (List.perm_insertionSort _ _).symm)
    (List.sorted_insertionSort _ _) (List.sorted_insertionSort _ _)

theorem all_one_suit_comp_perm (hand : Hand) (p : Equiv.Perm (Fin 5)) :
    all_one_suit (hand ∘ p) ↔ all_one_suit hand := by
  constructor
  · intro h i j
    simpa using h (p.symm i) (p.symm j)
  · intro h i j
    exact h (p i) (p j)

theorem check_flush_comp_perm (hand : Hand) (p : Equiv.Perm (Fin 5)) :
    check_flush (hand ∘ p) = check_flush hand := by
  rw [Bool.eq_iff_iff, check_flush_iff, check_flush_iff, all_one_suit_comp_perm]

/-- C2. The evaluator does not depend on the slot order: for every hand and
every permutation `p` of the five slots, `score_poker`, `check_flush`,
`check_straight`, `check_pairs` and `check_n_of_a_kind` return the same value
on the hand and on the hand reordered by `p`. -/
theorem score_poker_slot_order_irrelevant (hand : Hand) (p : Equiv.Perm (Fin 5)) :
    score_poker (hand ∘ p) = score_poker hand ∧
    check_flush (hand ∘ p) = check_flush hand ∧
    check_straight (hand ∘ p) = check_straight hand ∧
    check_pairs (hand ∘ p) = check_pairs hand ∧
    check_n_of_a_kind (hand ∘ p) = check_n_of_a_kind hand := by
  have hs : check_straight (hand ∘ p) = check_straight hand := by
    simp only [check_straight, get_ords_comp_perm]
  have hpairs : check_pairs (hand ∘ p) = check_pairs hand := by
    simp only [check_pairs, get_ords_comp_perm]
  have hn : check_n_of_a_kind (hand ∘ p) = check_n_of_a_kind hand := by
    simp only [check_n_of_a_kind, get_ords_comp_perm]
  refine ⟨?_, check_flush_comp_perm hand p, hs, hpairs, hn⟩
  simp only [score_poker, check_royal_flush, check_straight_flush, check_full_house,
    get_ords_comp_perm, check_flush_comp_perm, hs, hpairs, hn]

/-! ## Royal flush, straight flush, full house, four of a kind -/

/-- C8. Royal flush implies straight flush, straight flush is exactly flush
and straight, and a hand that is both a flush and a straight is classified as
Royal Flush when its sorted ordinals are `8..12` and as Straight Flush
otherwise, so never as plain Flush or plain Straight. -/
theorem royal_within_straight_flush (hand : Hand) :
    (check_royal_flush hand = true → check_straight_flush hand = true) ∧
    (check_straight_flush hand = true ↔
      check_flush hand = true ∧ check_straight hand = true) ∧
    (check_flush hand = true → check_straight hand = true →
      score_poker hand =
        if get_ords hand = [8, 9, 10, 11, 12] then ("Royal Flush", 10000)
        else ("Straight Flush", 1000)) := by
  refine ⟨?_, ?_, ?_⟩
  · intro h
    rw [check_royal_flush_iff] at h
    rw [check_straight_flush_iff, five_consecutive_iff]
    exact ⟨h.1, 8, (ranks_ten_to_ace_iff hand).mp h.2⟩
  · simp [check_straight_flush]
  · intro hf hs
    have hsf : check_straight_flush hand = true := by simp [check_straight_flush, hf, hs]
    by_cases hr : get_ords hand = [8, 9, 10, 11, 12]
    · have : check_royal_flush hand = true := by
        rw [check_royal_flush_iff, ranks_ten_to_ace_iff]
        exact ⟨(check_flush_iff hand).mp hf, hr⟩
      simp [score_poker, this, hr]
    · have : check_royal_flush hand = false := by
        rw [← Bool.not_eq_true, check_royal_flush_iff, ranks_ten_to_ace_iff]
        exact fun k => hr k.2
      simp [score_poker, this, hsf, hr]

/-- C9. `check_full_house` is true exactly when `check_pairs` is 2 and
`check_n_of_a_kind` is 3, which holds exactly when one rank occurs three times
and another rank twice; a hand in which a rank occurs four times has
`check_n_of_a_kind = 4`, `check_pairs = 1`, `check_full_house` false and is
classified as Four of a Kind with score 250. -/
theorem full_house_four_of_a_kind_disjoint (hand : Hand) :
    (check_full_house hand = true ↔ check_pairs hand = 2 ∧ check_n_of_a_kind hand = 3) ∧
    (check_pairs hand = 2 ∧ check_n_of_a_kind hand = 3 ↔ full_house hand) ∧
    (four_of_a_kind hand →
      check_n_of_a_kind hand = 4 ∧ check_pairs hand = 1 ∧ check_full_house hand = false ∧
      score_poker hand = ("Four of a Kind", 250)) := by
  obtain ⟨a, b, c, d, e, h, h1, h2, h3, h4, hp⟩ := get_ords_sorted hand
  refine ⟨by simp [check_full_house], ?_, ?_⟩
  · rw [check_pairs_eq_two hand a b c d e h h1 h2 h3 h4,
      check_n_of_a_kind_eq_three hand a b c d e h h1 h2 h3 h4,
      full_house_sorted hand a b c d e hp h1 h2 h3 h4]
    omega
  · intro hfour
    rw [four_of_a_kind_sorted hand a b c d e hp h1 h2 h3 h4] at hfour
    have hn : check_n_of_a_kind hand = 4 := by
      rw [check_n_of_a_kind_eq_four hand a b c d e h h1 h2 h3 h4]
      omega
    have hpr : check_pairs hand = 1 := by
      rw [check_pairs_eq_one hand a b c d e h h1 h2 h3 h4]
      omega
    have hst : check_straight hand = false := by
      rw [← Bool.not_eq_true, check_straight_closed hand a b c d e h]
      omega
    have hfh : check_full_house hand = false := by
      simp [check_full_house, hn]
    refine ⟨hn, hpr, hfh, ?_⟩
    simp [score_poker, check_royal_flush, check_straight_flush, hst, hn]

/-! ## The shuffle is a permutation, and any permutation -/

theorem getD_cons_eraseIdx_perm (l : List card) (i : Nat) (d : card) (h : i < l.length) :
    (l.getD i d :: l.eraseIdx i).Perm l := by
  induction l generalizing i with
  | nil => simp at h
  | cons x xs ih =>
    cases i with
    | zero => simp
    | succ j =>
      have hj : j < xs.length := by simpa using h
      have := ih j hj
      simp only [List.getD_cons_succ, List.eraseIdx_cons_succ]
      exact (List.Perm.swap x (xs.getD j d) (xs.eraseIdx j)).trans (this.cons x)

/-- Whatever the random draws, the shuffled deck is a permutation of the deck. -/
theorem shuffle_perm (picks : List Nat) (l : List card) : (shuffle picks l).Perm l := by
  induction picks generalizing l with
  | nil => cases l <;> simp [shuffle]
  | cons p ps ih =>
    cases l with
    | nil => simp [shuffle]
    | cons c cs =>
      simp only [shuffle]
      have hlt : p % (cs.length + 1) < (c :: cs).length := by
        simp only [List.length_cons]
        exact Nat.mod_lt _ (Nat.succ_pos _)
      exact ((ih _).cons _).trans (getD_cons_eraseIdx_perm (c :: cs) _ c hlt)

theorem shuffle_length (picks : List Nat) (l : List card) :
    (shuffle picks l).length = l.length :=
  (shuffle_perm picks l).length_eq

theorem shuffle_nil_picks (l : List card) : shuffle [] l = l := by
  cases l <;> rfl

/-- Every permutation of the deck is the outcome of the shuffle for some draws. -/
theorem shuffle_reaches (l l2 : List card) (h : l2.Perm l) :
    ∃ picks, shuffle picks l = l2 := by
  induction l2 generalizing l with
  | nil =>
    have : l = [] := by simpa using h.symm
    exact ⟨[], by simp [this, shuffle]⟩
  | cons x xs ih =>
    have hx : x ∈ l := h.subset (List.mem_cons_self x xs)
    cases l with
    | nil => simp at hx
    | cons c cs =>
      have hi : (c :: cs).indexOf x < (cs.length + 1) := by
        simpa using List.indexOf_lt_length.mpr hx
      have hget : (c :: cs).getD ((c :: cs).indexOf x) c = x := by
        rw [List.getD_eq_getElem _ _ (by simpa using hi)]
        exact List.getElem_indexOf _
      have hperm : xs.Perm ((c :: cs).eraseIdx ((c :: cs).indexOf x)) := by
        have h2 := getD_cons_eraseIdx_perm (c :: cs) ((c :: cs).indexOf x) c (by simpa using hi)
        rw [hget] at h2
        exact (h.trans h2.symm).cons_inv
      obtain ⟨ps, hps⟩ := ih _ hperm
      refine ⟨(c :: cs).indexOf x :: ps, ?_⟩
      simp only [shuffle, Nat.mod_eq_of_lt hi, hps, List.cons.injEq, and_true]
      exact hget

/-! ## The deck of `initialize_deck` -/

theorem full_deck_length : full_deck.length = 52 := by decide

theorem full_deck_nodup : full_deck.Nodup := by decide

/-! ## Container accesses -/

theorem deck_at_zero_cons (c : card) (cs : List card) : deck_at (c :: cs) 0 = .ok c := by
  simp [deck_at]

theorem deck_at_zero_of_ne_nil (deck : List card) (h : deck ≠ []) :
    ∃ c cs, deck = c :: cs ∧ deck_at deck 0 = .ok c := by
  cases deck with
  | nil => exact absurd rfl h
  | cons c cs => exact ⟨c, cs, rfl, deck_at_zero_cons c cs⟩

theorem hand_at_ok (hand : Hand) (k : Fin 5) : hand_at hand (k.val : Int) = .ok (hand k) := by
  have : (0 : Int) ≤ k.val ∧ (k.val : Int) < 5 := ⟨by omega, by omega⟩
  simp [hand_at, this]

theorem hand_set_ok (hand : Hand) (k : Fin 5) (c : card) :
    hand_set hand (k.val : Int) c = .ok (Function.update hand k c) := by
  have : (0 : Int) ≤ k.val ∧ (k.val : Int) < 5 := ⟨by omega, by omega⟩
  simp [hand_set, this]

theorem hand_at_eq_ok (hand : Hand) (i : Int) (c : card) (h : hand_at hand i = .ok c) :
    ∃ k : Fin 5, (k.val : Int) = i ∧ c = hand k := by
  unfold hand_at at h
  split at h
  · rename_i hi
    refine ⟨⟨i.toNat, by omega⟩, by simp; omega, ?_⟩
    simpa using h.symm
  · simp at h

/-! ## Dealing -/

theorem deck_at_nat (deck : List card) (k : Nat) (h : k < deck.length) :
    deck_at deck (k : Int) = .ok (deck.getD k default) := by
  have h0 : (0 : Int) ≤ k := by omega
  simp only [deck_at, h0, if_true, Int.toNat_ofNat, List.get?_eq_getElem?]
  rw [List.getElem?_eq_getElem h, List.getD_eq_getElem _ _ h]

theorem hand_set_int (hand : Hand) (i : Int) (c : card) (hi : 0 ≤ i ∧ i < 5) :
    hand_set hand i c = .ok (Function.update hand ⟨i.toNat, by omega⟩ c) := by
  simp [hand_set, hi]

theorem deal_cards_fold (g : Game) (h0 : 0 ≤ g.cards_to_deal) (h5 : g.cards_to_deal ≤ 5)
    (hlen : g.cards_to_deal.toNat ≤ g.deck.length) (k : Nat) (hk : k ≤ g.cards_to_deal.toNat) :
    (List.range k).foldlM
      (fun g (k : Nat) => do
        let i : Int := (5 - g.cards_to_deal) + (k : Int)
        let c ← deck_at g.deck (i - (5 - g.cards_to_deal))
        let hand ← hand_set g.hand i c
        pure { g with hand := hand })
      g = (.ok { g with hand := dealt_hand g k } : Except Stop Game) := by
  induction k with
  | zero =>
    have : dealt_hand g 0 = g.hand := by
      funext j
      simp only [dealt_hand, Nat.add_zero]
      rw [if_neg (by omega)]
    simp only [List.range_zero, List.foldlM_nil, this]
    rfl
  | succ k ih =>
    have hk1 : k < g.cards_to_deal.toNat := by omega
    rw [List.range_succ, List.foldlM_append, ih (by omega)]
    have e1 : (5 - g.cards_to_deal + (k : Int) - (5 - g.cards_to_deal)) = (k : Int) := by omega
    have hi : 0 ≤ 5 - g.cards_to_deal + (k : Int) ∧ 5 - g.cards_to_deal + (k : Int) < 5 := by
      omega
    simp only [List.foldlM_cons, List.foldlM_nil, e1, deck_at_nat g.deck k (by omega),
      hand_set_int _ _ _ hi, bind, Except.bind, pure, Except.pure]
    congr 2
    funext j
    have hidx : (5 - g.cards_to_deal + (k : Int)).toNat = (5 - g.cards_to_deal).toNat + k := by
      omega
    simp only [Function.update, dealt_hand]
    by_cases hj : j = ⟨(5 - g.cards_to_deal + (k : Int)).toNat, by omega⟩
    · subst hj
      simp only [dite_true, eq_rec_constant]
      rw [if_pos (by simp only [hidx]; omega)]
      simp only [hidx, Nat.add_sub_cancel_left]
    · have hjv : j.val ≠ (5 - g.cards_to_deal).toNat + k := by
        intro h
        apply hj
        ext
        simp only [hidx, h]
      simp only [hj, dite_false]
      by_cases hc : (5 - g.cards_to_deal).toNat ≤ j.val ∧
          j.val < (5 - g.cards_to_deal).toNat + k
      · rw [if_pos hc, if_pos (by omega)]
      · rw [if_neg hc, if_neg (by omega)]

/-- With `cards_to_deal` in `0..5` and at least that many cards in the deck,
`deal_cards` returns and copies `deck[0..cards_to_deal-1]` into the last
`cards_to_deal` slots. -/
theorem deal_cards_eq (g : Game) (h0 : 0 ≤ g.cards_to_deal) (h5 : g.cards_to_deal ≤ 5)
    (hlen : g.cards_to_deal.toNat ≤ g.deck.length) :
    deal_cards g = .ok { g with hand := dealt_hand g g.cards_to_deal.toNat } := by
  unfold deal_cards
  exact deal_cards_fold g h0 h5 hlen _ (le_refl _)

theorem dealt_hand_of_lt (g : Game) (k : Nat) (j : Fin 5)
    (hj : j.val < (5 - g.cards_to_deal).toNat) : dealt_hand g k j = g.hand j := by
  unfold dealt_hand
  rw [if_neg (by omega)]

theorem first_slots_congr (h1 h2 : Hand) (s : Nat) (h : ∀ j : Fin 5, j.val < s → h1 j = h2 j) :
    first_slots h1 s = first_slots h2 s := by
  unfold first_slots
  apply List.map_congr_left
  intro j hj
  exact h j (by simpa using (List.mem_filter.mp hj).2)

theorem first_slots_length (hand : Hand) (s : Nat) (hs : s ≤ 5) :
    (first_slots hand s).length = s := by
  unfold first_slots
  rw [List.length_map]
  interval_cases s <;> rfl

theorem first_slots_succ (hand : Hand) (s : Nat) (hs : s < 5) :
    first_slots hand (s + 1) = first_slots hand s ++ [hand ⟨s, hs⟩] := by
  unfold first_slots
  interval_cases s <;> rfl

theorem first_slots_five (hand : Hand) : first_slots hand 5 = hand_cards hand := by
  unfold first_slots hand_cards
  rw [List.ofFn_eq_map]
  rfl

theorem deal_invariant_deck_length (g : Game) (h : deal_invariant g) :
    (g.deck.length : Int) = 47 + g.cards_to_deal := by
  obtain ⟨h0, h5, hp⟩ := h
  have hl := hp.length_eq
  rw [List.length_append, full_deck_length, committed,
    first_slots_length _ _ (by omega)] at hl
  omega

theorem committed_deal_cards (g : Game) (k : Nat) :
    committed { g with hand := dealt_hand g k } = committed g := by
  unfold committed
  exact first_slots_congr _ _ _ (fun j hj => dealt_hand_of_lt g k j hj)

/-- One iteration of `deal_hand` from a state that satisfies the dealing
invariant with cards still to deal: it returns, keeps the invariant, and
either commits the front card of the deck into slot `5 - cards_to_deal` (Space
down and `key_pressed` false) or leaves the committed slots alone. -/
theorem deal_hand_iter_spec (g : Game) (p : Poll) (hinv : deal_invariant g)
    (h0 : 0 < g.cards_to_deal) :
    ∃ g1, deal_hand_iter g p = .ok g1 ∧ deal_invariant g1 ∧
      g1.redeals_remaining = g.redeals_remaining ∧
      g1.redeal_card_num = g.redeal_card_num ∧ g1.waiting = g.waiting ∧
      ((p.space = true ∧ g.key_pressed = false) →
        g1.cards_to_deal = g.cards_to_deal - 1 ∧ g1.key_pressed = true ∧
        ∃ c cs, g.deck = c :: cs ∧ committed g1 = committed g ++ [c] ∧
          g1.deck = shuffle p.picks cs) ∧
      (¬(p.space = true ∧ g.key_pressed = false) →
        g1.cards_to_deal = g.cards_to_deal ∧ committed g1 = committed g ∧
        g1.deck = shuffle p.picks g.deck ∧
        g1.key_pressed = (g.key_pressed && p.space_again)) := by
  have hlen := deal_invariant_deck_length g hinv
  obtain ⟨hn0, hn5, hperm⟩ := hinv
  have hdc := deal_cards_eq g hn0 hn5 (by omega)
  by_cases hc : p.space = true ∧ g.key_pressed = false
  · obtain ⟨c, cs, hdeck⟩ : ∃ c cs, g.deck = c :: cs := by
      cases hd : g.deck with
      | nil => rw [hd] at hlen; simp at hlen; omega
      | cons c cs => exact ⟨c, cs, rfl⟩
    have hs : (5 - (g.cards_to_deal - 1)).toNat = (5 - g.cards_to_deal).toNat + 1 := by omega
    have hslot : (5 - g.cards_to_deal).toNat < 5 := by omega
    have hcomm : committed
        { g with hand := dealt_hand g g.cards_to_deal.toNat, key_pressed := true,
                 deck := shuffle p.picks cs, cards_to_deal := g.cards_to_deal - 1 } =
        committed g ++ [c] := by
      have e := committed_deal_cards g g.cards_to_deal.toNat
      unfold committed at e ⊢
      simp only at e ⊢
      rw [hs, first_slots_succ _ _ hslot, e]
      congr 2
      unfold dealt_hand
      rw [if_pos (by simp only; omega)]
      simp [hdeck]
    refine ⟨{ g with hand := dealt_hand g g.cards_to_deal.toNat, key_pressed := true,
                     deck := shuffle p.picks cs, cards_to_deal := g.cards_to_deal - 1 },
      ?_, ⟨?_, ?_, ?_⟩, rfl, rfl, rfl, ?_, ?_⟩
    · simp [deal_hand_iter, hdc, bind, Except.bind, pure, Except.pure, hc.1, hc.2, hdeck,
        deck_erase_begin]
    · simp only; omega
    · simp only; omega
    · rw [hcomm]
      simp only
      rw [hdeck] at hperm
      refine List.Perm.trans ?_ hperm
      rw [List.append_assoc]
      exact List.Perm.append_left _ ((shuffle_perm p.picks cs).cons c)
    · intro _
      exact ⟨rfl, rfl, c, cs, hdeck, hcomm, rfl⟩
    · intro h
      exact absurd hc h
  · have hcomm : ∀ kp : Bool, committed
        { g with hand := dealt_hand g g.cards_to_deal.toNat, key_pressed := kp,
                 deck := shuffle p.picks g.deck } = committed g := by
      intro kp
      exact committed_deal_cards g g.cards_to_deal.toNat
    refine ⟨{ g with hand := dealt_hand g g.cards_to_deal.toNat,
                     key_pressed := (g.key_pressed && p.space_again),
                     deck := shuffle p.picks g.deck },
      ?_, ⟨hn0, hn5, ?_⟩, rfl, rfl, rfl, ?_, ?_⟩
    · have hc2 : (p.space && !g.key_pressed) = false := by
        cases hsp : p.space <;> cases hkp : g.key_pressed <;> simp_all
      simp only [deal_hand_iter, hdc, bind, Except.bind, pure, Except.pure, hc2]
      cases hsp : p.space_again <;> cases hkp : g.key_pressed <;> simp
    · rw [hcomm]
      exact (List.Perm.append_left _ (shuffle_perm p.picks g.deck)).trans hperm
    · intro h
      exact absurd h hc
    · intro _
      exact ⟨rfl, hcomm _, rfl, rfl⟩

theorem deal_invariant_zero (g : Game) (h : deal_invariant g) (h0 : g.cards_to_deal = 0) :
    hand_deck_invariant g := by
  obtain ⟨-, -, hp⟩ := h
  unfold hand_deck_invariant
  unfold committed at hp
  rw [h0] at hp
  have : (5 - (0 : Int)).toNat = 5 := by decide
  rw [this, first_slots_five] at hp
  exact hp

/-- From a state that satisfies the dealing invariant, `deal_hand` never
fails on an access: it either returns with all five slots committed and the
invariant kept, or the recorded input ends while it is still polling. -/
theorem deal_hand_spec (ps : List Poll) (g : Game) (hinv : deal_invariant g) :
    (∃ g1 rest, deal_hand g ps = .ok (g1, rest) ∧ deal_invariant g1 ∧
      g1.cards_to_deal = 0 ∧ g1.redeals_remaining = g.redeals_remaining) ∨
    deal_hand g ps = .error .awaitingInput := by
  induction ps generalizing g with
  | nil =>
    by_cases h0 : g.cards_to_deal > 0
    · right
      simp [deal_hand, h0]
    · left
      exact ⟨g, [], by simp [deal_hand, h0], hinv, by have := hinv.1; omega, rfl⟩
  | cons p ps ih =>
    by_cases h0 : g.cards_to_deal > 0
    · obtain ⟨g1, hg1, hinv1, hrr, -⟩ := deal_hand_iter_spec g p hinv h0
      have hstep : deal_hand g (p :: ps) = deal_hand g1 ps := by
        simp [deal_hand, h0, hg1, Except.bind]
      rw [hstep]
      rcases ih g1 hinv1 with ⟨g2, rest, h2, hinv2, hz, hrr2⟩ | herr
      · left
        exact ⟨g2, rest, h2, hinv2, hz, hrr2.trans hrr⟩
      · right
        exact herr
    · left
      exact ⟨g, p :: ps, by simp [deal_hand, h0], hinv, by have := hinv.1; omega, rfl⟩

/-! ## Re-dealing one card -/

theorem redeal_card_loop_not_waiting (idx : Int) (g : Game) (ps : List Poll)
    (h : g.waiting = false) : redeal_card_loop idx g ps = .ok (g, ps) := by
  cases ps <;> simp [redeal_card_loop, h]

/-- One iteration of the preview loop on a non-empty deck. -/
theorem redeal_card_iter_spec (k : Fin 5) (g : Game) (p : Poll) (hne : g.deck ≠ []) :
    ∃ c cs, shuffle p.picks g.deck = c :: cs ∧
      redeal_card_iter (k.val : Int) g p =
        .ok (if p.space = true then
              { g with deck := cs, hand := Function.update g.hand k c, waiting := false }
            else { g with deck := c :: cs, hand := Function.update g.hand k c }) := by
  have hlen : (shuffle p.picks g.deck).length = g.deck.length := shuffle_length _ _
  cases hs : shuffle p.picks g.deck with
  | nil =>
    rw [hs] at hlen
    exact absurd (List.length_eq_zero.mp hlen.symm) hne
  | cons c cs =>
    refine ⟨c, cs, rfl, ?_⟩
    cases hsp : p.space <;>
    simp [redeal_card_iter, hs, deck_at_zero_cons, hand_set_ok, bind, Except.bind, pure,
      Except.pure, hsp, deck_erase_begin]

/-- Whenever the preview loop returns, it returned at the first poll with Space
down, after shuffling the deck at every poll; the slot holds the front card of
the last shuffle and that card has left the deck. -/
theorem redeal_card_loop_inv (k : Fin 5) (ps : List Poll) (g g1 : Game) (rest : List Poll)
    (hw : g.waiting = true) (hne : g.deck ≠ [])
    (h : redeal_card_loop (k.val : Int) g ps = .ok (g1, rest)) :
    ∃ pre p c cs d0, ps = pre ++ p :: rest ∧ p.space = true ∧
      (∀ q ∈ pre, q.space = false) ∧ d0.Perm g.deck ∧ (pre = [] → d0 = g.deck) ∧
      shuffle p.picks d0 = c :: cs ∧
      g1 = { g with deck := cs, hand := Function.update g.hand k c, waiting := false } := by
  induction ps generalizing g with
  | nil => simp [redeal_card_loop, hw] at h
  | cons p ps ih =>
    obtain ⟨c, cs, hsh, hiter⟩ := redeal_card_iter_spec k g p hne
    obtain ⟨deck, hand, n, rr, num, w, kp⟩ := g
    simp only at hw
    subst hw
    simp only [redeal_card_loop, if_true, hiter, Except.bind] at h
    cases hsp : p.space with
    | true =>
      simp only [hsp, if_true] at h
      rw [redeal_card_loop_not_waiting _ _ _ rfl] at h
      simp only [Except.ok.injEq, Prod.mk.injEq] at h
      obtain ⟨rfl, rfl⟩ := h
      exact ⟨[], p, c, cs, deck, rfl, hsp, by simp, List.Perm.refl _, fun _ => rfl, hsh, rfl⟩
    | false =>
      simp only [hsp, if_false, Bool.false_eq_true] at h
      obtain ⟨pre, q, c2, cs2, d0, hps, hq, hpre, hd0, -, hsh2, hg1⟩ :=
        ih _ rfl (by simp) h
      refine ⟨p :: pre, q, c2, cs2, d0, by simp [hps], hq, ?_, ?_, by simp, hsh2, ?_⟩
      · intro x hx
        rcases List.mem_cons.mp hx with rfl | hx
        · exact hsp
        · exact hpre x hx
      · simp only at hd0
        rw [← hsh] at hd0
        exact hd0.trans (shuffle_perm _ _)
      · rw [hg1]
        simp

/-- The preview loop returns as soon as one poll has Space down, and it never
fails on an access when the deck is not empty. -/
theorem redeal_card_loop_returns (k : Fin 5) (ps : List Poll) (g : Game)
    (hw : g.waiting = true) (hne : g.deck ≠ []) :
    (∃ r, redeal_card_loop (k.val : Int) g ps = .ok r) ∨
    (redeal_card_loop (k.val : Int) g ps = .error .awaitingInput ∧ ∀ q ∈ ps, q.space = false) := by
  induction ps generalizing g with
  | nil => right; simp [redeal_card_loop, hw]
  | cons p ps ih =>
    obtain ⟨c, cs, hsh, hiter⟩ := redeal_card_iter_spec k g p hne
    cases hsp : p.space with
    | true =>
      left
      simp only [redeal_card_loop, hw, if_true, hiter, Except.bind, hsp]
      rw [redeal_card_loop_not_waiting _ _ _ rfl]
      exact ⟨_, rfl⟩
    | false =>
      have hstep : redeal_card_loop (k.val : Int) g (p :: ps) =
          redeal_card_loop (k.val : Int)
            { g with deck := c :: cs, hand := Function.update g.hand k c } ps := by
        simp [redeal_card_loop, hw, hiter, Except.bind, hsp]
      rw [hstep]
      rcases ih { g with deck := c :: cs, hand := Function.update g.hand k c } hw (by simp) with
        hok | ⟨herr, hall⟩
      · left; exact hok
      · right
        refine ⟨herr, ?_⟩
        intro q hq
        rcases List.mem_cons.mp hq with rfl | hq
        · exact hsp
        · exact hall q hq

theorem redeal_card_iter_nil (idx : Int) (g : Game) (p : Poll) (h : g.deck = []) :
    redeal_card_iter idx g p = .error .outOfBounds := by
  simp [redeal_card_iter, h, shuffle, deck_at, bind, Except.bind]

theorem redeal_card_loop_deck_ne_nil (idx : Int) (ps : List Poll) (g : Game)
    (r : Game × List Poll) (hw : g.waiting = true)
    (h : redeal_card_loop idx g ps = .ok r) : g.deck ≠ [] := by
  intro hnil
  cases ps with
  | nil => simp [redeal_card_loop, hw] at h
  | cons p ps =>
    simp [redeal_card_loop, hw, redeal_card_iter_nil idx g p hnil, Except.bind] at h

theorem hand_cards_eq (hand : Hand) :
    hand_cards hand = [hand 0, hand 1, hand 2, hand 3, hand 4] := by
  unfold hand_cards
  simp [List.ofFn_succ]
  exact ⟨rfl, rfl⟩

theorem hand_cards_update_perm (hand : Hand) (k : Fin 5) (c : card) :
    (hand_cards (Function.update hand k c) ++ [hand k]).Perm (c :: hand_cards hand) := by
  rw [List.perm_iff_count, hand_cards_eq, hand_cards_eq]
  intro x
  fin_cases k <;>
  simp [Function.update, List.count_cons] <;> omega

/-- Whenever `redeal_card` returns, the selected slot `k` is a slot of the
hand, the loop returned at the first poll with Space down, the slot holds the
front card of the deck as last shuffled, that card has left the deck, the
other slots are untouched, and the card the slot held before is the last card
of the deck. -/
theorem redeal_card_inv (g g1 : Game) (ps rest : List Poll)
    (h : redeal_card g ps = .ok (g1, rest)) :
    ∃ (k : Fin 5) (pre : List Poll) (p : Poll) (c : card) (cs d0 : List card),
      (k.val : Int) = g.redeal_card_num - 1 ∧ ps = pre ++ p :: rest ∧ p.space = true ∧
      (∀ q ∈ pre, q.space = false) ∧ d0.Perm g.deck ∧ (pre = [] → d0 = g.deck) ∧
      shuffle p.picks d0 = c :: cs ∧
      g1 = { g with deck := cs ++ [g.hand k], hand := Function.update g.hand k c,
                    waiting := false } := by
  unfold redeal_card at h
  cases hat : hand_at g.hand (g.redeal_card_num - 1) with
  | error e => simp [hat, bind, Except.bind] at h
  | ok discard =>
    obtain ⟨k, hk, hd⟩ := hand_at_eq_ok _ _ _ hat
    rw [← hk] at h hat
    cases hloop : redeal_card_loop (k.val : Int) { g with waiting := true } ps with
    | error e => simp [hat, hloop, bind, Except.bind] at h
    | ok r =>
      obtain ⟨g2, rest2⟩ := r
      simp only [hat, hloop, bind, Except.bind, pure, Except.pure, Except.ok.injEq,
        Prod.mk.injEq] at h
      obtain ⟨hg1, hrest⟩ := h
      subst hrest
      have hne := redeal_card_loop_deck_ne_nil _ _ _ _ rfl hloop
      obtain ⟨pre, p, c, cs, d0, hps, hsp, hpre, hd0, hd1, hsh, hg2⟩ :=
        redeal_card_loop_inv k ps _ g2 rest2 rfl hne hloop
      refine ⟨k, pre, p, c, cs, d0, hk, hps, hsp, hpre, hd0, hd1, hsh, ?_⟩
      rw [← hg1, hg2, hd]

/-- With a slot number in `1..5` and a non-empty deck, `redeal_card` returns as
soon as one poll has Space down and never fails on an access. -/
theorem redeal_card_returns (g : Game) (ps : List Poll)
    (hnum : 1 ≤ g.redeal_card_num ∧ g.redeal_card_num ≤ 5) (hne : g.deck ≠ []) :
    (∃ r, redeal_card g ps = .ok r) ∨
    (redeal_card g ps = .error .awaitingInput ∧ ∀ q ∈ ps, q.space = false) := by
  obtain ⟨k, hk⟩ : ∃ k : Fin 5, (k.val : Int) = g.redeal_card_num - 1 :=
    ⟨⟨(g.redeal_card_num - 1).toNat, by omega⟩, by simp only; omega⟩
  have hat := hand_at_ok g.hand k
  have hloop := redeal_card_loop_returns k ps { g with waiting := true } rfl hne
  rw [hk] at hat hloop
  unfold redeal_card
  rcases hloop with ⟨r, hr⟩ | ⟨herr, hall⟩
  · left
    obtain ⟨g2, rest2⟩ := r
    refine ⟨({ g2 with deck := g2.deck ++ [g.hand k] }, rest2), ?_⟩
    simp only [hat, hr, bind, Except.bind, pure, Except.pure]
  · right
    exact ⟨by simp only [hat, herr, bind, Except.bind], hall⟩

/-- A completed `redeal_card` keeps the invariant that hand and deck together
are the 52 cards. -/
theorem redeal_card_keeps_invariant (g g1 : Game) (ps rest : List Poll)
    (hinv : hand_deck_invariant g) (h : redeal_card g ps = .ok (g1, rest)) :
    hand_deck_invariant g1 ∧ g1.redeals_remaining = g.redeals_remaining ∧
      g1.redeal_card_num = g.redeal_card_num ∧ g1.cards_to_deal = g.cards_to_deal := by
  obtain ⟨k, pre, p, c, cs, d0, -, -, -, -, hd0, -, hsh, rfl⟩ := redeal_card_inv g g1 ps rest h
  refine ⟨?_, rfl, rfl, rfl⟩
  unfold hand_deck_invariant at hinv ⊢
  simp only
  have hdeck : (c :: cs).Perm g.deck := by
    rw [← hsh]
    exact (shuffle_perm _ _).trans hd0
  have e1 : (hand_cards (Function.update g.hand k c) ++ (cs ++ [g.hand k])).Perm
      ((hand_cards (Function.update g.hand k c) ++ [g.hand k]) ++ cs) := by
    rw [List.append_assoc]
    exact List.Perm.append_left _ List.perm_append_comm
  have e2 : ((hand_cards (Function.update g.hand k c) ++ [g.hand k]) ++ cs).Perm
      ((c :: hand_cards g.hand) ++ cs) :=
    List.Perm.append_right _ (hand_cards_update_perm g.hand k c)
  have e3 : ((c :: hand_cards g.hand) ++ cs).Perm (hand_cards g.hand ++ (c :: cs)) := by
    simp only [List.cons_append]
    exact List.perm_middle.symm
  exact ((e1.trans e2).trans e3).trans ((List.Perm.append_left _ hdeck).trans hinv)

theorem hand_deck_invariant_deck_length (g : Game) (h : hand_deck_invariant g) :
    g.deck.length = 47 := by
  have hl := h.length_eq
  rw [List.length_append, full_deck_length] at hl
  simp [hand_cards] at hl
  omega

theorem hand_deck_invariant_nodup (g : Game) (h : hand_deck_invariant g) :
    (hand_cards g.hand ++ g.deck).Nodup :=
  h.nodup_iff.mpr full_deck_nodup

/-! ## The selection loop and the redraw budget -/

/-- One selection poll changes only `redeal_card_num` and `waiting`; either no
digit key `0..5` is down and nothing changes, or `waiting` is cleared and the
selected number is a digit `0..5` that is down. -/
theorem select_iter_spec (g : Game) (p : Poll) :
    (select_iter g p).deck = g.deck ∧ (select_iter g p).hand = g.hand ∧
    (select_iter g p).cards_to_deal = g.cards_to_deal ∧
    (select_iter g p).redeals_remaining = g.redeals_remaining ∧
    (select_iter g p).key_pressed = g.key_pressed ∧
    (select_iter g p = g ∨
      ((select_iter g p).waiting = false ∧ 0 ≤ (select_iter g p).redeal_card_num ∧
        (select_iter g p).redeal_card_num ≤ 5 ∧
        (select_iter g p).redeal_card_num.toNat ∈ p.digits)) := by
  simp only [select_iter, List.range_succ, List.range_zero, List.nil_append, List.cons_append,
    List.foldl_cons, List.foldl_nil, List.contains_eq_any_beq, List.any_eq_true, beq_iff_eq,
    exists_eq_right]
  split_ifs <;> simp_all

theorem select_loop_not_waiting (g : Game) (ps : List Poll) (h : g.waiting = false) :
    select_loop g ps = .ok (g, ps) := by
  cases ps <;> simp [select_loop, h]

/-- The selection loop either runs out of recorded input or returns with a
selected number in `0..5`, having changed only `redeal_card_num` and `waiting`. -/
theorem select_loop_spec (ps : List Poll) (g : Game) (hw : g.waiting = true) :
    select_loop g ps = .error .awaitingInput ∨
    ∃ g1 rest, select_loop g ps = .ok (g1, rest) ∧ g1.deck = g.deck ∧ g1.hand = g.hand ∧
      g1.cards_to_deal = g.cards_to_deal ∧ g1.redeals_remaining = g.redeals_remaining ∧
      g1.key_pressed = g.key_pressed ∧ g1.waiting = false ∧
      0 ≤ g1.redeal_card_num ∧ g1.redeal_card_num ≤ 5 := by
  induction ps generalizing g with
  | nil => left; simp [select_loop, hw]
  | cons p ps ih =>
    have hstep : select_loop g (p :: ps) = select_loop (select_iter g p) ps := by
      simp [select_loop, hw]
    rw [hstep]
    obtain ⟨hd, hh, hc, hr, hk, hcase⟩ := select_iter_spec g p
    rcases hcase with hsame | ⟨hw1, h0, h5, -⟩
    · rw [hsame]
      exact ih g hw
    · right
      exact ⟨select_iter g p, ps, select_loop_not_waiting _ _ hw1, hd, hh, hc, hr, hk, hw1,
        h0, h5⟩

/-- What one pass of the outer loop of `redeal_cards` does when it returns:
either `0` was selected, the budget is `0`, no card was re-dealt and hand and
deck are as before; or a slot `1..5` was selected, `redeal_card` completed
once on the state left by the selection and the budget dropped by one. -/
theorem redeal_cards_iter_inv (g g1 : Game) (ps rest : List Poll) (k : Nat)
    (h : redeal_cards_iter g ps = .ok (g1, rest, k)) :
    (g1.redeal_card_num = 0 ∧ k = 0 ∧ g1.redeals_remaining = 0 ∧ g1.hand = g.hand ∧
      g1.deck = g.deck) ∨
    (1 ≤ g1.redeal_card_num ∧ g1.redeal_card_num ≤ 5 ∧ k = 1 ∧
      g1.redeals_remaining = g.redeals_remaining - 1 ∧
      ∃ gs ps1 g2, gs.deck = g.deck ∧ gs.hand = g.hand ∧
        gs.redeal_card_num = g1.redeal_card_num ∧ gs.key_pressed = g.key_pressed ∧
        redeal_card gs ps1 = .ok (g2, rest) ∧
        g1 = { g2 with redeals_remaining := g2.redeals_remaining - 1 }) := by
  unfold redeal_cards_iter at h
  rcases select_loop_spec ps { g with waiting := true } rfl with herr | ⟨gs, ps1, hsel, hd, hh,
    hc, hr, hk, hw, h0, h5⟩
  · simp [herr, bind, Except.bind] at h
  · simp only at hd hh hc hr hk
    simp only [hsel, bind, Except.bind, pure, Except.pure] at h
    by_cases hz : gs.redeal_card_num = 0
    · left
      simp only [hz, beq_self_eq_true, if_true, Except.ok.injEq, Prod.mk.injEq] at h
      obtain ⟨rfl, -, rfl⟩ := h
      exact ⟨rfl, rfl, rfl, hh, hd⟩
    · right
      have hb : (gs.redeal_card_num == 0) = false := by simpa using hz
      simp only [hb, Bool.false_eq_true, if_false] at h
      cases hrc : redeal_card gs ps1 with
      | error e => simp [hrc] at h
      | ok r =>
        obtain ⟨g2, ps2⟩ := r
        simp only [hrc, Except.ok.injEq, Prod.mk.injEq] at h
        obtain ⟨rfl, rfl, rfl⟩ := h
        obtain ⟨kk, pre, p, c, cs, d0, -, -, -, -, -, -, -, hg2⟩ :=
          redeal_card_inv gs g2 ps1 ps2 hrc
        have hnum : g2.redeal_card_num = gs.redeal_card_num := by rw [hg2]
        have hrem : g2.redeals_remaining = g.redeals_remaining := by rw [hg2]; exact hr
        refine ⟨?_, ?_, rfl, ?_, gs, ps1, g2, hd, hh, hnum.symm, hk, hrc, rfl⟩
        · simp only [hnum]; omega
        · simp only [hnum]; omega
        · simp only [hrem]

/-- From a state in which hand and deck are the 52 cards, one pass of the outer
loop of `redeal_cards` never fails on an access: it returns with the invariant
kept, or the recorded input ends while a loop is still polling. -/
theorem redeal_cards_iter_spec (g : Game) (ps : List Poll) (hinv : hand_deck_invariant g) :
    redeal_cards_iter g ps = .error .awaitingInput ∨
    ∃ g1 rest k, redeal_cards_iter g ps = .ok (g1, rest, k) ∧ hand_deck_invariant g1 := by
  rcases select_loop_spec ps { g with waiting := true } rfl with herr | ⟨gs, ps1, hsel, hd, hh,
    hc, hr, hk, hw, h0, h5⟩
  · left
    simp [redeal_cards_iter, herr, bind, Except.bind]
  · simp only at hd hh hc hr hk
    have hinvs : hand_deck_invariant gs := by
      unfold hand_deck_invariant at hinv ⊢
      rw [hd, hh]
      exact hinv
    by_cases hz : gs.redeal_card_num = 0
    · right
      refine ⟨{ gs with redeals_remaining := 0 }, ps1, 0, ?_, hinvs⟩
      simp [redeal_cards_iter, hsel, bind, Except.bind, pure, Except.pure, hz]
    · have hb : (gs.redeal_card_num == 0) = false := by simpa using hz
      have hne : gs.deck ≠ [] := by
        have := hand_deck_invariant_deck_length gs hinvs
        intro hnil
        rw [hnil] at this
        simp at this
      rcases redeal_card_returns gs ps1 ⟨by omega, h5⟩ hne with ⟨⟨g2, ps2⟩, hok⟩ | ⟨herr, -⟩
      · right
        refine ⟨{ g2 with redeals_remaining := g2.redeals_remaining - 1 }, ps2, 1, ?_,
          (redeal_card_keeps_invariant gs g2 ps1 ps2 hinvs hok).1⟩
        simp [redeal_cards_iter, hsel, bind, Except.bind, pure, Except.pure, hb, hok]
      · left
        simp [redeal_cards_iter, hsel, bind, Except.bind, hb, herr]

theorem redeal_cards_loop_zero (fuel : Nat) (g : Game) (ps : List Poll)
    (h : g.redeals_remaining ≤ 0) : redeal_cards_loop fuel g ps = .ok (g, ps, 0) := by
  have : ¬ g.redeals_remaining > 0 := by omega
  cases fuel <;> simp [redeal_cards_loop, this]

/-- With a budget in `0..fuel` and hand and deck the 52 cards, the outer loop
of `redeal_cards` never fails on an access and never uses up its iteration
budget: it returns with budget `0` after at most `redeals_remaining` redraws,
or the recorded input ends while a loop is still polling. -/
theorem redeal_cards_loop_spec (fuel : Nat) (g : Game) (ps : List Poll)
    (hinv : hand_deck_invariant g) (h0 : 0 ≤ g.redeals_remaining)
    (hfuel : g.redeals_remaining ≤ fuel) :
    redeal_cards_loop fuel g ps = .error .awaitingInput ∨
    ∃ g1 rest k, redeal_cards_loop fuel g ps = .ok (g1, rest, k) ∧ hand_deck_invariant g1 ∧
      g1.redeals_remaining = 0 ∧ (k : Int) ≤ g.redeals_remaining := by
  induction fuel generalizing g ps with
  | zero =>
    right
    have hz : g.redeals_remaining = 0 := by
      have : g.redeals_remaining ≤ 0 := by simpa using hfuel
      omega
    exact ⟨g, ps, 0, redeal_cards_loop_zero 0 g ps (by omega), hinv, hz, by simp [hz]⟩
  | succ fuel ih =>
    by_cases hpos : g.redeals_remaining > 0
    · rcases redeal_cards_iter_spec g ps hinv with herr | ⟨g1, ps1, k1, hit, hinv1⟩
      · left
        simp [redeal_cards_loop, hpos, herr, bind, Except.bind]
      · have hstep : redeal_cards_loop (fuel + 1) g ps =
            (redeal_cards_loop fuel g1 ps1).bind
              (fun r => .ok (r.1, r.2.1, k1 + r.2.2)) := by
          simp only [redeal_cards_loop, hpos, if_true, hit, bind, Except.bind, pure, Except.pure]
        have hrem : (g1.redeals_remaining = 0 ∧ k1 = 0) ∨
            (g1.redeals_remaining = g.redeals_remaining - 1 ∧ k1 = 1) := by
          rcases redeal_cards_iter_inv g g1 ps ps1 k1 hit with
            ⟨-, hk, hr, -, -⟩ | ⟨-, -, hk, hr, -⟩
          · exact Or.inl ⟨hr, hk⟩
          · exact Or.inr ⟨hr, hk⟩
        rw [hstep]
        rcases ih g1 ps1 hinv1 (by omega) (by omega) with herr | ⟨g2, rest, k2, hl, hinv2, hz, hk2⟩
        · left
          simp [herr, Except.bind]
        · right
          refine ⟨g2, rest, k1 + k2, by simp [hl, Except.bind], hinv2, hz, ?_⟩
          push_cast
          omega
    · right
      have hz : g.redeals_remaining = 0 := by omega
      exact ⟨g, ps, 0, redeal_cards_loop_zero _ g ps (by omega), hinv, hz, by simp [hz]⟩

/-- The state `play_poker` hands to `deal_hand` satisfies the dealing
invariant: no slot is committed and the deck is the shuffled 52 cards. -/
theorem initialize_deck_invariant (g : Game) (picks : List Nat) :
    deal_invariant (initialize_deck { g with cards_to_deal := 5, redeals_remaining := 5 } picks) := by
  refine ⟨by simp [initialize_deck], by simp [initialize_deck], ?_⟩
  have : committed (initialize_deck { g with cards_to_deal := 5, redeals_remaining := 5 } picks)
      = [] := by
    simp [committed, initialize_deck, first_slots]
  rw [this]
  exact shuffle_perm picks full_deck

/-- For every starting state, every outcome of the initial shuffle and every
recorded input, `play_poker` never fails on an access and never uses up the
iteration budget: it returns with hand and deck the 52 cards, or the recorded
input ends while a loop is still polling. -/
theorem play_poker_spec (g : Game) (picks : List Nat) (ps : List Poll) :
    play_poker g picks ps = .error .awaitingInput ∨
    ∃ g1 rest, play_poker g picks ps = .ok (g1, score_poker g1.hand, rest) ∧
      hand_deck_invariant g1 ∧ g1.redeals_remaining = 0 := by
  unfold play_poker
  rcases deal_hand_spec ps _ (initialize_deck_invariant g picks) with
    ⟨g1, ps1, hd, hinv1, hz1, hr1⟩ | herr
  · have hinv1b := deal_invariant_zero g1 hinv1 hz1
    have hr5 : g1.redeals_remaining = 5 := by
      rw [hr1]
      rfl
    rcases redeal_cards_loop_spec g1.redeals_remaining.toNat g1 ps1 hinv1b (by omega)
        (by omega) with herr | ⟨g2, ps2, k, hl, hinv2, hz2, -⟩
    · left
      simp only [hd, bind, Except.bind, redeal_cards, herr]
    · right
      exact ⟨g2, ps2, by simp only [hd, bind, Except.bind, redeal_cards, hl, pure, Except.pure],
        hinv2, hz2⟩
  · left
    simp only [herr, bind, Except.bind]

/-! ## The iteration budget of `redeal_cards` is never used up -/

theorem redeal_card_iter_error (idx : Int) (g : Game) (p : Poll) (e : Stop)
    (h : redeal_card_iter idx g p = .error e) : e = .outOfBounds := by
  unfold redeal_card_iter at h
  simp only [bind, Except.bind, pure, Except.pure] at h
  cases hd : deck_at (shuffle p.picks g.deck) 0 with
  | error e1 =>
    have : e1 = .outOfBounds := by
      unfold deck_at at hd
      split at hd
      · split at hd <;> simp at hd
        exact hd.symm
      · simp at hd
        exact hd.symm
    rw [hd] at h
    simp only [Except.error.injEq] at h
    rw [← h, this]
  | ok c =>
    rw [hd] at h
    simp only at h
    cases hs : hand_set g.hand idx c with
    | error e1 =>
      have : e1 = .outOfBounds := by
        unfold hand_set at hs
        split at hs <;> simp at hs
        exact hs.symm
      rw [hs] at h
      simp only [Except.error.injEq] at h
      rw [← h, this]
    | ok hand1 =>
      rw [hs] at h
      simp only at h
      split at h
      · cases he : deck_erase_begin (shuffle p.picks g.deck) with
        | error e1 =>
          have : e1 = .outOfBounds := by
            unfold deck_erase_begin at he
            split at he <;> simp at he
            exact he.symm
          rw [he] at h
          simp only [Except.error.injEq] at h
          rw [← h, this]
        | ok d1 =>
          rw [he] at h
          simp at h
      · simp at h

theorem redeal_card_loop_error (idx : Int) (ps : List Poll) (g : Game) (e : Stop)
    (h : redeal_card_loop idx g ps = .error e) : e ≠ .outOfFuel := by
  induction ps generalizing g with
  | nil =>
    unfold redeal_card_loop at h
    split at h <;> simp at h
    rw [← h]
    simp
  | cons p ps ih =>
    unfold redeal_card_loop at h
    split at h
    · cases hit : redeal_card_iter idx g p with
      | error e1 =>
        rw [hit] at h
        simp only [Except.bind, Except.error.injEq] at h
        rw [← h, redeal_card_iter_error idx g p e1 hit]
        simp
      | ok g1 =>
        rw [hit] at h
        exact ih g1 h
    · simp at h

theorem redeal_card_error (g : Game) (ps : List Poll) (e : Stop)
    (h : redeal_card g ps = .error e) : e ≠ .outOfFuel := by
  unfold redeal_card at h
  simp only [bind, Except.bind, pure, Except.pure] at h
  cases hat : hand_at g.hand (g.redeal_card_num - 1) with
  | error e1 =>
    have : e1 = .outOfBounds := by
      unfold hand_at at hat
      split at hat <;> simp at hat
      exact hat.symm
    rw [hat] at h
    simp only [Except.error.injEq] at h
    rw [← h, this]
    simp
  | ok c =>
    rw [hat] at h
    simp only at h
    cases hl : redeal_card_loop (g.redeal_card_num - 1) { g with waiting := true } ps with
    | error e1 =>
      rw [hl] at h
      simp only [Except.error.injEq] at h
      rw [← h]
      exact redeal_card_loop_error _ _ _ _ hl
    | ok r =>
      rw [hl] at h
      simp at h

theorem redeal_cards_iter_error (g : Game) (ps : List Poll) (e : Stop)
    (h : redeal_cards_iter g ps = .error e) : e ≠ .outOfFuel := by
  unfold redeal_cards_iter at h
  simp only [bind, Except.bind, pure, Except.pure] at h
  rcases select_loop_spec ps { g with waiting := true } rfl with herr | ⟨gs, ps1, hsel, -⟩
  · rw [herr] at h
    simp only [Except.error.injEq] at h
    rw [← h]
    simp
  · rw [hsel] at h
    simp only at h
    split at h
    · simp at h
    · cases hrc : redeal_card gs ps1 with
      | error e1 =>
        rw [hrc] at h
        simp only [Except.error.injEq] at h
        rw [← h]
        exact redeal_card_error _ _ _ hrc
      | ok r =>
        rw [hrc] at h
        simp at h

/-- For every state and input, with a budget of at most `fuel` the loop of
`redeal_cards` never uses up its iteration budget; when it returns from a
non-negative budget, the budget is `0` and at most `redeals_remaining` redraws
were made. -/
theorem redeal_cards_loop_inv (fuel : Nat) (g : Game) (ps : List Poll)
    (hfuel : g.redeals_remaining ≤ fuel) :
    redeal_cards_loop fuel g ps ≠ .error .outOfFuel ∧
    ∀ g1 rest k, 0 ≤ g.redeals_remaining → redeal_cards_loop fuel g ps = .ok (g1, rest, k) →
      g1.redeals_remaining = 0 ∧ (k : Int) ≤ g.redeals_remaining := by
  induction fuel generalizing g ps with
  | zero =>
    have hle : g.redeals_remaining ≤ 0 := by simpa using hfuel
    rw [redeal_cards_loop_zero 0 g ps hle]
    refine ⟨by simp, ?_⟩
    intro g1 rest k h0 h
    simp only [Except.ok.injEq, Prod.mk.injEq] at h
    obtain ⟨rfl, -, rfl⟩ := h
    exact ⟨by omega, by simp; omega⟩
  | succ fuel ih =>
    by_cases hpos : g.redeals_remaining > 0
    · cases hit : redeal_cards_iter g ps with
      | error e =>
        have hstep : redeal_cards_loop (fuel + 1) g ps = .error e := by
          simp only [redeal_cards_loop, hpos, if_true, hit, bind, Except.bind]
        rw [hstep]
        refine ⟨?_, ?_⟩
        · intro he
          simp only [Except.error.injEq] at he
          exact redeal_cards_iter_error g ps e hit he
        · intro g1 rest k _ h
          cases h
      | ok r =>
        obtain ⟨g1, ps1, k1⟩ := r
        have hstep : redeal_cards_loop (fuel + 1) g ps =
            (redeal_cards_loop fuel g1 ps1).bind
              (fun r => .ok (r.1, r.2.1, k1 + r.2.2)) := by
          simp only [redeal_cards_loop, hpos, if_true, hit, bind, Except.bind, pure, Except.pure]
        have hrem : (g1.redeals_remaining = 0 ∧ k1 = 0) ∨
            (g1.redeals_remaining = g.redeals_remaining - 1 ∧ k1 = 1) := by
          rcases redeal_cards_iter_inv g g1 ps ps1 k1 hit with
            ⟨-, hk, hr, -, -⟩ | ⟨-, -, hk, hr, -⟩
          · exact Or.inl ⟨hr, hk⟩
          · exact Or.inr ⟨hr, hk⟩
        obtain ⟨ihne, ihok⟩ := ih g1 ps1 (by omega)
        rw [hstep]
        refine ⟨?_, ?_⟩
        · cases hl : redeal_cards_loop fuel g1 ps1 with
          | error e =>
            simp only [Except.bind, ne_eq, Except.error.injEq]
            intro he
            rw [hl, he] at ihne
            exact ihne rfl
          | ok r => simp [Except.bind]
        · intro g2 rest k h0 h
          cases hl : redeal_cards_loop fuel g1 ps1 with
          | error e =>
            rw [hl] at h
            simp [Except.bind] at h
          | ok r =>
            obtain ⟨g3, ps3, k3⟩ := r
            rw [hl] at h
            simp only [Except.bind, Except.ok.injEq, Prod.mk.injEq] at h
            obtain ⟨rfl, -, rfl⟩ := h
            obtain ⟨hz, hk3⟩ := ihok g3 ps3 k3 (by omega) hl
            refine ⟨hz, ?_⟩
            push_cast
            omega
    · rw [redeal_cards_loop_zero _ g ps (by omega)]
      refine ⟨by simp, ?_⟩
      intro g1 rest k h0 h
      simp only [Except.ok.injEq, Prod.mk.injEq] at h
      obtain ⟨rfl, -, rfl⟩ := h
      exact ⟨by omega, by simp; omega⟩

/-! ## A whole round on a recorded input -/

theorem deal_hand_up_down (g : Game) (ps : List Poll) (a b : Poll)
    (hinv : deal_invariant g) (h0 : 0 < g.cards_to_deal)
    (ha : a.space = false ∧ a.space_again = false) (hb : b.space = true) :
    ∃ g2, deal_hand g (a :: b :: ps) = deal_hand g2 ps ∧ deal_invariant g2 ∧
      g2.cards_to_deal = g.cards_to_deal - 1 ∧
      g2.redeals_remaining = g.redeals_remaining := by
  obtain ⟨g1, hg1, hinv1, hr1, -, -, -, hno⟩ := deal_hand_iter_spec g a hinv h0
  obtain ⟨hn1, -, -, hk1⟩ := hno (by simp [ha.1])
  have hk1b : g1.key_pressed = false := by simp [hk1, ha.2]
  obtain ⟨g2, hg2, hinv2, hr2, -, -, hyes, -⟩ := deal_hand_iter_spec g1 b hinv1 (by omega)
  obtain ⟨hn2, -, -⟩ := hyes ⟨hb, hk1b⟩
  refine ⟨g2, ?_, hinv2, by omega, hr2.trans hr1⟩
  have h1 : g1.cards_to_deal > 0 := by omega
  simp [deal_hand, h0, hg1, Except.bind, h1, hg2]

/-- Enough input gives a result: on the recorded input `sample_round`,
`play_poker` returns for every starting state and every initial shuffle. -/
theorem play_poker_completes (g : Game) (picks : List Nat) :
    ∃ g1, play_poker g picks sample_round = .ok (g1, score_poker g1.hand, []) := by
  have hup : (space_up [] []).space = false ∧ (space_up [] []).space_again = false :=
    ⟨rfl, rfl⟩
  have hdown : (space_down [] []).space = true := rfl
  have hi := initialize_deck_invariant g picks
  have hn : (initialize_deck { g with cards_to_deal := 5, redeals_remaining := 5 }
      picks).cards_to_deal = 5 := rfl
  have hr : (initialize_deck { g with cards_to_deal := 5, redeals_remaining := 5 }
      picks).redeals_remaining = 5 := rfl
  obtain ⟨g1, e1, i1, n1, r1⟩ := deal_hand_up_down _ [space_up [] [], space_down [] [],
    space_up [] [], space_down [] [], space_up [] [], space_down [] [], space_up [] [],
    space_down [] [], space_up [0] []] _ _ hi (by omega) hup hdown
  obtain ⟨g2, e2, i2, n2, r2⟩ := deal_hand_up_down g1 [space_up [] [], space_down [] [],
    space_up [] [], space_down [] [], space_up [] [], space_down [] [],
    space_up [0] []] _ _ i1 (by omega) hup hdown
  obtain ⟨g3, e3, i3, n3, r3⟩ := deal_hand_up_down g2 [space_up [] [], space_down [] [],
    space_up [] [], space_down [] [], space_up [0] []] _ _ i2 (by omega) hup hdown
  obtain ⟨g4, e4, i4, n4, r4⟩ := deal_hand_up_down g3 [space_up [] [], space_down [] [],
    space_up [0] []] _ _ i3 (by omega) hup hdown
  obtain ⟨g5, e5, i5, n5, r5⟩ := deal_hand_up_down g4 [space_up [0] []] _ _ i4 (by omega)
    hup hdown
  have hz : ¬ g5.cards_to_deal > 0 := by omega
  have hdeal : deal_hand (initialize_deck { g with cards_to_deal := 5, redeals_remaining := 5 }
      picks) sample_round = .ok (g5, [space_up [0] []]) := by
    unfold sample_round
    rw [e1, e2, e3, e4, e5]
    simp [deal_hand, hz]
  have hrem : g5.redeals_remaining = 5 := by omega
  refine ⟨{ g5 with redeal_card_num := 0, waiting := false, redeals_remaining := 0 }, ?_⟩
  simp [play_poker, hdeal, bind, Except.bind, pure, Except.pure, redeal_cards, hrem,
    redeal_cards_loop, redeal_cards_iter, select_loop, select_iter, space_up, List.range_succ]

/-! ## Sample states satisfy the invariants -/

theorem sample_dealt_invariant : hand_deck_invariant sample_dealt := by
  unfold hand_deck_invariant
  have : hand_cards sample_dealt.hand ++ sample_dealt.deck = full_deck := by decide
  rw [this]

theorem sample_dealing_invariant : deal_invariant sample_dealing := by
  refine ⟨by decide, by decide, ?_⟩
  have : committed sample_dealing ++ sample_dealing.deck = full_deck := by decide
  rw [this]

theorem perm_full_deck_count (l : List card) (h : l.Perm full_deck) (c : card) :
    l.count c = if c ∈ full_deck then 1 else 0 := by
  rw [h.count_eq]
  split
  · rename_i hc
    exact List.count_eq_one_of_mem full_deck_nodup hc
  · rename_i hc
    exact List.count_eq_zero_of_not_mem hc

/-! ## Deck and hand invariant -/

/-- C3. From `initialize_deck` on, after every iteration of `deal_hand` (so
after every committed deal) and after every completed `redeal_card`, the deck
together with the committed hand slots is a rearrangement of the 52 cards:
every card of the full deck occurs exactly once in them and nothing else does.
When `play_poker` reaches scoring, the hand holds 5 distinct cards, the deck
the other 47, and no card is in both. -/
theorem deck_and_hand_hold_each_card_once :
    (∀ (g : Game) (picks : List Nat),
      deal_invariant
        (initialize_deck { g with cards_to_deal := 5, redeals_remaining := 5 } picks)) ∧
    (∀ (g : Game) (p : Poll), deal_invariant g → 0 < g.cards_to_deal →
      ∃ g1, deal_hand_iter g p = .ok g1 ∧ deal_invariant g1) ∧
    (∀ (g g1 : Game) (ps rest : List Poll), hand_deck_invariant g →
      redeal_card g ps = .ok (g1, rest) → hand_deck_invariant g1) ∧
    (∀ (g g1 : Game) (picks : List Nat) (ps rest : List Poll) (res : String × Int),
      play_poker g picks ps = .ok (g1, res, rest) →
      hand_deck_invariant g1 ∧ (hand_cards g1.hand).Nodup ∧ g1.deck.Nodup ∧
      (hand_cards g1.hand).length = 5 ∧ g1.deck.length = 47 ∧
      (∀ c ∈ hand_cards g1.hand, c ∉ g1.deck) ∧
      (∀ c ∈ full_deck, c ∈ hand_cards g1.hand ∨ c ∈ g1.deck)) ∧
    (∀ g : Game, deal_invariant g →
      ∀ c, (committed g ++ g.deck).count c = if c ∈ full_deck then 1 else 0) ∧
    (∀ g : Game, hand_deck_invariant g →
      ∀ c, (hand_cards g.hand ++ g.deck).count c = if c ∈ full_deck then 1 else 0) := by
  refine ⟨initialize_deck_invariant, ?_, ?_, ?_, ?_, ?_⟩
  · intro g p hinv h0
    obtain ⟨g1, h1, hinv1, -⟩ := deal_hand_iter_spec g p hinv h0
    exact ⟨g1, h1, hinv1⟩
  · intro g g1 ps rest hinv h
    exact (redeal_card_keeps_invariant g g1 ps rest hinv h).1
  · intro g g1 picks ps rest res h
    rcases play_poker_spec g picks ps with herr | ⟨g2, rest2, hok, hinv, -⟩
    · rw [herr] at h
      cases h
    · rw [hok] at h
      simp only [Except.ok.injEq, Prod.mk.injEq] at h
      obtain ⟨rfl, -, -⟩ := h
      have hnd := hand_deck_invariant_nodup g2 hinv
      refine ⟨hinv, (List.nodup_append.mp hnd).1, (List.nodup_append.mp hnd).2.1,
        by simp [hand_cards], hand_deck_invariant_deck_length g2 hinv, ?_, ?_⟩
      · intro c hc hd
        exact (List.nodup_append.mp hnd).2.2 hc hd
      · intro c hc
        have := hinv.symm.subset hc
        exact List.mem_append.mp this
  · intro g hinv c
    exact perm_full_deck_count _ hinv.2.2 c
  · intro g hinv c
    exact perm_full_deck_count _ hinv c

theorem deck_and_hand_hold_each_card_once_witness :
    (∃ g1, deal_hand_iter sample_dealing (space_down [] []) = .ok g1 ∧ deal_invariant g1) ∧
    (∃ g1, play_poker sample_dealt [] sample_round = .ok (g1, score_poker g1.hand, []) ∧
      hand_deck_invariant g1 ∧ (hand_cards g1.hand).Nodup ∧ g1.deck.length = 47) := by
  refine ⟨deck_and_hand_hold_each_card_once.2.1 sample_dealing (space_down [] [])
    sample_dealing_invariant (by decide), ?_⟩
  obtain ⟨g1, h⟩ := play_poker_completes sample_dealt []
  have k := deck_and_hand_hold_each_card_once.2.2.2.1 sample_dealt g1 [] sample_round [] _ h
  exact ⟨g1, h, k.1, k.2.1, k.2.2.2.2.1⟩

/-! ## One redraw -/

/-- C10. Within one redraw the player is never re-dealt the card being
replaced: from a state whose hand holds no card of the deck, when
`redeal_card` completes for slot `k` the card now in slot `k` was in the deck
and one copy of it has been erased from the deck (on a deck without duplicates
it is no longer there), it differs from the card slot `k` held before, the
other four slots are unchanged, and the card held before is the last card of
the deck. -/
theorem redeal_card_never_returns_discard (g g1 : Game) (ps rest : List Poll)
    (hdisj : ∀ i, g.hand i ∉ g.deck) (h : redeal_card g ps = .ok (g1, rest)) :
    ∃ k : Fin 5, (k.val : Int) = g.redeal_card_num - 1 ∧
      g1.hand k ∈ g.deck ∧
      g1.deck.Perm (g.deck.erase (g1.hand k) ++ [g.hand k]) ∧
      (g.deck.Nodup → g1.hand k ∉ g1.deck) ∧
      g1.hand k ≠ g.hand k ∧
      (∀ j, j ≠ k → g1.hand j = g.hand j) ∧
      g1.deck.getLast? = some (g.hand k) := by
  obtain ⟨k, pre, p, c, cs, d0, hk, -, -, -, hd0, -, hsh, rfl⟩ := redeal_card_inv g g1 ps rest h
  have hdeck : (c :: cs).Perm g.deck := by
    rw [← hsh]
    exact (shuffle_perm _ _).trans hd0
  have hc : c ∈ g.deck := hdeck.subset (List.mem_cons_self c cs)
  have hne : c ≠ g.hand k := fun e => hdisj k (e ▸ hc)
  have herase : cs.Perm (g.deck.erase c) := by
    have := hdeck.erase c
    simpa using this
  refine ⟨k, hk, ?_, ?_, ?_, ?_, ?_, ?_⟩
  · simpa using hc
  · simpa using List.Perm.append_right _ herase
  · intro hnd
    have hnd2 : (c :: cs).Nodup := hdeck.nodup_iff.mpr hnd
    have hcs : c ∉ cs := (List.nodup_cons.mp hnd2).1
    simp only [Function.update_same, List.mem_append, List.mem_singleton, not_or]
    exact ⟨hcs, hne⟩
  · simpa using hne
  · intro j hj
    simp [Function.update_noteq hj]
  · simp

theorem redeal_card_never_returns_discard_witness :
    ∃ g1 rest,
      redeal_card { sample_dealt with redeal_card_num := 1 } [space_down [] []] = .ok (g1, rest) ∧
      g1.hand 0 ∈ sample_dealt.deck ∧ g1.hand 0 ≠ sample_dealt.hand 0 ∧
      g1.deck.getLast? = some (sample_dealt.hand 0) := by
  rcases redeal_card_returns { sample_dealt with redeal_card_num := 1 } [space_down [] []]
    (by decide) (by decide) with ⟨⟨g1, rest⟩, hok⟩ | ⟨-, hall⟩
  · obtain ⟨k, hk, hmem, -, -, hne, -, hlast⟩ :=
      redeal_card_never_returns_discard { sample_dealt with redeal_card_num := 1 } g1
        [space_down [] []] rest (by decide) hok
    have hk0 : k = 0 := by
      simp only at hk
      ext
      simp only [Fin.val_zero]
      omega
    subst hk0
    exact ⟨g1, rest, hok, hmem, hne, hlast⟩
  · exact absurd (hall (space_down [] []) (List.mem_singleton.mpr rfl)) (by decide)

/-! ## Two consecutive redraws -/

/-- C4, as stated, fails. From the state `sample_dealt` (hand 2♦ 3♦ 4♦ 5♦ 6♦,
deck the other 47 cards) a first redraw of slot 1 puts 7♦ into the slot and
returns 2♦ to the bottom of the deck; the following redraw of slot 1 shuffles
first, the shuffle moves the bottom card to the front, and its first draw puts
2♦ back into the hand. -/
theorem returned_card_is_next_draw :
    hand_deck_invariant sample_dealt ∧
    sample_dealt.hand 0 = ⟨'2', 'D', 0⟩ ∧
    (redeal_cards_iter sample_dealt [space_up [1] [], space_down [] []]).toOption.map
        (fun r => (r.1.hand 0, r.1.deck.getLast?, r.2.2)) =
      some (⟨'7', 'D', 5⟩, some ⟨'2', 'D', 0⟩, 1) ∧
    ((redeal_cards_iter sample_dealt [space_up [1] [], space_down [] []]).bind
        (fun r => redeal_cards_iter r.1 [space_up [1] [], space_down [] [46]])).toOption.map
        (fun r => (r.1.hand 0, r.2.2)) =
      some (⟨'2', 'D', 0⟩, 1) := by
  refine ⟨sample_dealt_invariant, by decide, by decide, by decide⟩

/-- C4, amended. A completed redraw returns the card previously held in the
selected slot to the bottom of the deck, where it is not the front card. The
next `redeal_card` shuffles before it draws: its first replacement is the
front card of the shuffled deck, which is not the returned card when the
shuffle keeps the order, and is the returned card for some other shuffle. -/
theorem returned_card_at_bottom_then_shuffled (g g1 : Game) (ps rest : List Poll)
    (hinv : hand_deck_invariant g) (h : redeal_card g ps = .ok (g1, rest)) :
    ∃ k : Fin 5, (k.val : Int) = g.redeal_card_num - 1 ∧
      g1.deck.getLast? = some (g.hand k) ∧
      g1.deck.head? ≠ some (g.hand k) ∧
      (∀ (g2 : Game) (j : Fin 5) (p : Poll), g2.deck = g1.deck →
        ∃ g3, redeal_card_iter (j.val : Int) g2 p = .ok g3 ∧
          some (g3.hand j) = (shuffle p.picks g1.deck).head? ∧
          (p.picks = [] → g3.hand j ≠ g.hand k)) ∧
      (∃ picks, ∀ (g2 : Game) (j : Fin 5) (p : Poll), g2.deck = g1.deck → p.picks = picks →
        ∃ g3, redeal_card_iter (j.val : Int) g2 p = .ok g3 ∧ g3.hand j = g.hand k) := by
  have hinv1 := (redeal_card_keeps_invariant g g1 ps rest hinv h).1
  have hlen1 := hand_deck_invariant_deck_length g1 hinv1
  have hnd1 : g1.deck.Nodup := (List.nodup_append.mp (hand_deck_invariant_nodup g1 hinv1)).2.1
  obtain ⟨k, pre, p, c, cs, d0, hk, -, -, -, -, -, -, hg1⟩ := redeal_card_inv g g1 ps rest h
  have hdeck1 : g1.deck = cs ++ [g.hand k] := by rw [hg1]
  have hlast : g1.deck.getLast? = some (g.hand k) := by simp [hdeck1]
  have hcs : cs.length = 46 := by
    rw [hdeck1] at hlen1
    simpa using hlen1
  have hhead : g1.deck.head? ≠ some (g.hand k) := by
    rw [hdeck1] at hnd1 ⊢
    cases cs with
    | nil => simp at hcs
    | cons x xs =>
      simp only [List.cons_append, List.head?_cons, ne_eq, Option.some.injEq]
      intro hx
      have := (List.nodup_cons.mp hnd1).1
      exact this (by simp [hx])
  have hne1 : g1.deck ≠ [] := by
    intro e
    rw [e] at hlen1
    simp at hlen1
  have hiter : ∀ (g2 : Game) (j : Fin 5) (q : Poll), g2.deck = g1.deck →
      ∃ g3, redeal_card_iter (j.val : Int) g2 q = .ok g3 ∧
        some (g3.hand j) = (shuffle q.picks g1.deck).head? := by
    intro g2 j q hd
    obtain ⟨c2, cs2, hsh2, hit⟩ := redeal_card_iter_spec j g2 q (hd ▸ hne1)
    rw [hd] at hsh2
    refine ⟨_, hit, ?_⟩
    rw [hsh2]
    cases q.space <;> simp
  refine ⟨k, hk, hlast, hhead, ?_, ?_⟩
  · intro g2 j q hd
    obtain ⟨g3, hit, hdraw⟩ := hiter g2 j q hd
    refine ⟨g3, hit, hdraw, ?_⟩
    intro hp e
    rw [hp, shuffle_nil_picks, e] at hdraw
    exact hhead hdraw.symm
  · obtain ⟨picks, hpicks⟩ := shuffle_reaches g1.deck (g.hand k :: cs)
      (by rw [hdeck1]; exact (List.perm_append_singleton _ _).symm)
    refine ⟨picks, ?_⟩
    intro g2 j q hd hq
    obtain ⟨g3, hit, hdraw⟩ := hiter g2 j q hd
    refine ⟨g3, hit, ?_⟩
    rw [hq, hpicks] at hdraw
    simpa using hdraw

theorem returned_card_at_bottom_then_shuffled_witness :
    ∃ g1 rest,
      redeal_card { sample_dealt with redeal_card_num := 1 } [space_down [] []] = .ok (g1, rest) ∧
      g1.deck.getLast? = some (sample_dealt.hand 0) ∧
      g1.deck.head? ≠ some (sample_dealt.hand 0) := by
  rcases redeal_card_returns { sample_dealt with redeal_card_num := 1 } [space_down [] []]
    (by decide) (by decide) with ⟨⟨g1, rest⟩, hok⟩ | ⟨-, hall⟩
  · obtain ⟨k, hk, hlast, hhead, -⟩ :=
      returned_card_at_bottom_then_shuffled { sample_dealt with redeal_card_num := 1 } g1
        [space_down [] []] rest sample_dealt_invariant hok
    have hk0 : k = 0 := by
      simp only at hk
      ext
      simp only [Fin.val_zero]
      omega
    subst hk0
    exact ⟨g1, rest, hok, hlast, hhead⟩
  · exact absurd (hall (space_down [] []) (List.mem_singleton.mpr rfl)) (by decide)

/-! ## The confirm signal of a redraw -/

/-- C5, as stated, fails. Space is down at three consecutive polls: the poll
of `deal_hand` that commits the fifth card, the selection poll that picks slot
1, and the first poll of `redeal_card`. The redraw commits at that first poll,
although the signal was already active at the poll before (and `key_pressed`
says so): slot 1 changes from 2♦ to 7♦, all recorded input is consumed and one
redraw is counted. -/
theorem redraw_commits_while_signal_held :
    (deal_hand sample_dealing [space_down [] []]).toOption.map
        (fun r => (r.1.cards_to_deal, r.1.key_pressed, r.1.hand 0, r.2)) =
      some (0, true, ⟨'2', 'D', 0⟩, []) ∧
    ((deal_hand sample_dealing [space_down [] []]).bind
        (fun r => redeal_cards_iter r.1 [space_down [1] [], space_down [] []])).toOption.map
        (fun r => (r.1.hand 0, r.1.key_pressed, r.2.1, r.2.2)) =
      some (⟨'7', 'D', 5⟩, true, [], 1) := by
  refine ⟨by decide, by decide⟩

/-- C5, amended. A redraw commits its replacement card at the first poll of
`redeal_card` at which the confirm signal is active and returns there, leaving
the later polls unread: the selected slot then holds the front card of the deck
as shuffled at that poll, that card has left the deck, the card the slot held
before is appended to the deck, and no other slot changes, so one redraw
commits exactly one card. The signal was inactive at every earlier poll of the
same redraw, so a commit at a later poll than the first is an
inactive-to-active transition; the signal before the redraw started is not
consulted and `key_pressed` is neither read nor changed, so with the signal
active at the first poll the redraw commits there whatever `key_pressed` is.
With a slot number `1..5` and a non-empty deck the redraw returns as soon as a
poll has the signal active, and commits nothing while no poll has. -/
theorem redraw_commits_at_first_active_poll (g : Game) (ps : List Poll) :
    (∀ (g1 : Game) (rest : List Poll), redeal_card g ps = .ok (g1, rest) →
      ∃ (k : Fin 5) (pre : List Poll) (p : Poll) (c : card) (cs d0 : List card),
        (k.val : Int) = g.redeal_card_num - 1 ∧
        ps = pre ++ p :: rest ∧ p.space = true ∧ (∀ q ∈ pre, q.space = false) ∧
        d0.Perm g.deck ∧ (pre = [] → d0 = g.deck) ∧ shuffle p.picks d0 = c :: cs ∧
        g1.hand k = c ∧ (∀ j, j ≠ k → g1.hand j = g.hand j) ∧
        g1.deck = cs ++ [g.hand k] ∧ g1.deck.length = g.deck.length ∧
        g1.key_pressed = g.key_pressed) ∧
    (∀ (k : Fin 5) (p : Poll) (rest : List Poll), (k.val : Int) = g.redeal_card_num - 1 →
      p.space = true → g.deck ≠ [] →
      ∃ c cs, shuffle p.picks g.deck = c :: cs ∧
        redeal_card g (p :: rest) =
          .ok ({ g with deck := cs ++ [g.hand k], hand := Function.update g.hand k c,
                        waiting := false }, rest)) ∧
    (1 ≤ g.redeal_card_num ∧ g.redeal_card_num ≤ 5 → g.deck ≠ [] →
      (∃ q ∈ ps, q.space = true) → ∃ r, redeal_card g ps = .ok r) ∧
    (1 ≤ g.redeal_card_num ∧ g.redeal_card_num ≤ 5 → g.deck ≠ [] →
      (∀ q ∈ ps, q.space = false) → redeal_card g ps = .error .awaitingInput) := by
  refine ⟨?_, ?_, ?_, ?_⟩
  · intro g1 rest h
    obtain ⟨k, pre, p, c, cs, d0, hk, hps, hsp, hpre, hd0, hd1, hsh, rfl⟩ :=
      redeal_card_inv g g1 ps rest h
    refine ⟨k, pre, p, c, cs, d0, hk, hps, hsp, hpre, hd0, hd1, hsh, by simp, ?_, rfl, ?_, rfl⟩
    · intro j hj
      simp [Function.update_noteq hj]
    · have hl : (c :: cs).length = g.deck.length := by
        rw [← hsh, shuffle_length, hd0.length_eq]
      simpa using hl
  · intro k p rest hk hsp hne
    obtain ⟨c, cs, hsh, hit⟩ := redeal_card_iter_spec k { g with waiting := true } p hne
    refine ⟨c, cs, hsh, ?_⟩
    have hat := hand_at_ok g.hand k
    rw [hk] at hat hit
    simp only [hsp, if_true] at hit
    simp only [redeal_card, hat, bind, Except.bind, pure, Except.pure, redeal_card_loop,
      if_true, hit]
    rw [redeal_card_loop_not_waiting _ _ _ rfl]
  · intro hnum hne ⟨q, hq, hqs⟩
    rcases redeal_card_returns g ps hnum hne with hok | ⟨-, hall⟩
    · exact hok
    · rw [hall q hq] at hqs
      cases hqs
  · intro hnum hne hall
    rcases redeal_card_returns g ps hnum hne with ⟨⟨g1, rest⟩, hok⟩ | ⟨herr, -⟩
    · obtain ⟨k, pre, p, c, cs, d0, -, hps, hsp, -⟩ := redeal_card_inv g g1 ps rest hok
      have hp : p ∈ ps := by
        rw [hps]
        simp
      rw [hall p hp] at hsp
      cases hsp
    · exact herr

theorem redraw_commits_at_first_active_poll_witness :
    redeal_card { sample_dealt with redeal_card_num := 1 }
        [space_down [] [], space_down [] []] =
      .ok ({ sample_dealt with
              redeal_card_num := 1
              deck := (full_deck.drop 6) ++ [sample_dealt.hand 0]
              hand := Function.update sample_dealt.hand 0 ⟨'7', 'D', 5⟩ },
           [space_down [] []]) := by
  obtain ⟨c, cs, hsh, hok⟩ :=
    (redraw_commits_at_first_active_poll { sample_dealt with redeal_card_num := 1 }
      [space_down [] [], space_down [] []]).2.1 0 (space_down [] []) [space_down [] []]
      (by decide) rfl (by decide)
  have hsh2 : shuffle (space_down [] []).picks
      ({ sample_dealt with redeal_card_num := 1 } : Game).deck =
      ⟨'7', 'D', 5⟩ :: full_deck.drop 6 := by decide
  rw [hsh2] at hsh
  simp only [List.cons.injEq] at hsh
  obtain ⟨rfl, rfl⟩ := hsh
  exact hok

/-! ## The redraw budget -/

/-- C6. The redraw budget stays within `0..5` and bounds the redraw phase: it
is 5 when `deal_hand` hands over to `redeal_cards` in `play_poker`; one pass of
the loop of `redeal_cards` either selects `0`, which sets the budget to 0 and
leaves hand and deck unchanged, or completes one redraw and lowers the budget
by exactly one, so from a budget in `1..5` the new budget is in `0..4`, never
negative; from a budget in `0..5`, for every input, `redeal_cards` never uses
up its iteration budget and, when it returns, the budget is 0 and at most 5
redraws (at most the budget) were made; in play it returns or is still waiting
for input; and with budget 0 it returns at once without reading input. -/
theorem redraw_budget_bounds_redraws :
    (∀ (g g1 : Game) (picks : List Nat) (ps ps1 : List Poll),
      deal_hand (initialize_deck { g with cards_to_deal := 5, redeals_remaining := 5 } picks)
        ps = .ok (g1, ps1) → g1.redeals_remaining = 5 ∧ hand_deck_invariant g1) ∧
    (∀ (g g1 : Game) (ps rest : List Poll) (k : Nat),
      redeal_cards_iter g ps = .ok (g1, rest, k) →
      ((g1.redeal_card_num = 0 ∧ k = 0 ∧ g1.redeals_remaining = 0 ∧ g1.hand = g.hand ∧
          g1.deck = g.deck) ∨
        (1 ≤ g1.redeal_card_num ∧ g1.redeal_card_num ≤ 5 ∧ k = 1 ∧
          g1.redeals_remaining = g.redeals_remaining - 1)) ∧
      (1 ≤ g.redeals_remaining ∧ g.redeals_remaining ≤ 5 →
        0 ≤ g1.redeals_remaining ∧ g1.redeals_remaining ≤ 4)) ∧
    (∀ (g : Game) (ps : List Poll), 0 ≤ g.redeals_remaining → g.redeals_remaining ≤ 5 →
      redeal_cards g ps ≠ .error .outOfFuel ∧
      ∀ g1 rest k, redeal_cards g ps = .ok (g1, rest, k) →
        g1.redeals_remaining = 0 ∧ k ≤ 5 ∧ (k : Int) ≤ g.redeals_remaining) ∧
    (∀ (g : Game) (ps : List Poll), hand_deck_invariant g →
      0 ≤ g.redeals_remaining → g.redeals_remaining ≤ 5 →
      redeal_cards g ps = .error .awaitingInput ∨ ∃ r, redeal_cards g ps = .ok r) ∧
    (∀ (g : Game) (ps : List Poll), g.redeals_remaining = 0 →
      redeal_cards g ps = .ok (g, ps, 0)) := by
  refine ⟨?_, ?_, ?_, ?_, ?_⟩
  · intro g g1 picks ps ps1 h
    rcases deal_hand_spec ps _ (initialize_deck_invariant g picks) with
      ⟨g2, rest, hok, hinv, hz, hr⟩ | herr
    · rw [hok] at h
      simp only [Except.ok.injEq, Prod.mk.injEq] at h
      obtain ⟨rfl, -⟩ := h
      exact ⟨hr, deal_invariant_zero g2 hinv hz⟩
    · rw [herr] at h
      cases h
  · intro g g1 ps rest k h
    rcases redeal_cards_iter_inv g g1 ps rest k h with
      ⟨hn, hk, hr, hh, hd⟩ | ⟨h1, h5, hk, hr, -⟩
    · exact ⟨Or.inl ⟨hn, hk, hr, hh, hd⟩, fun _ => by omega⟩
    · exact ⟨Or.inr ⟨h1, h5, hk, hr⟩, fun _ => by omega⟩
  · intro g ps h0 h5
    obtain ⟨hne, hok⟩ := redeal_cards_loop_inv g.redeals_remaining.toNat g ps (by omega)
    refine ⟨hne, ?_⟩
    intro g1 rest k h
    obtain ⟨hz, hk⟩ := hok g1 rest k h0 h
    exact ⟨hz, by omega, hk⟩
  · intro g ps hinv h0 h5
    rcases redeal_cards_loop_spec g.redeals_remaining.toNat g ps hinv h0 (by omega) with
      herr | ⟨g1, rest, k, hok, -⟩
    · exact Or.inl herr
    · exact Or.inr ⟨_, hok⟩
  · intro g ps hz
    exact redeal_cards_loop_zero _ g ps (by omega)

theorem redraw_budget_bounds_redraws_witness :
    redeal_cards_iter sample_dealt [space_up [0] []] =
      .ok ({ sample_dealt with redeals_remaining := 0 }, [], 0) ∧
    ({ sample_dealt with redeals_remaining := 0 } : Game).redeals_remaining = 0 ∧
    ({ sample_dealt with redeals_remaining := 0 } : Game).hand = sample_dealt.hand ∧
    ({ sample_dealt with redeals_remaining := 0 } : Game).deck = sample_dealt.deck :=
  ⟨rfl,
   (redraw_budget_bounds_redraws.2.1 sample_dealt _ [space_up [0] []] [] 0 rfl).1.elim
    (fun a => ⟨a.2.2.1, a.2.2.2.1, a.2.2.2.2⟩)
    (fun b => absurd b.2.2.1 (by decide))⟩

/-! ## Deck accesses stay in bounds -/

/-- C7. No draw is ever attempted on an empty deck. For every starting state,
initial shuffle and recorded input, `play_poker` makes no access outside the
deck or the hand: it returns, or the input ends while a loop is polling (and
on `sample_round` it returns). While dealing with `cards_to_deal = n > 0` the
deck holds `47 + n` cards and `deal_cards` reads `deck[0..n-1]` in bounds; in
`redeal_card` every poll reads `deck[0]` of a 47-card deck, a commit leaves 46
cards, and the completed redraw leaves 47 again. -/
theorem deck_accesses_in_bounds :
    (∀ (g : Game) (picks : List Nat) (ps : List Poll),
      play_poker g picks ps ≠ .error .outOfBounds ∧
      play_poker g picks ps ≠ .error .outOfFuel) ∧
    (∀ (g : Game) (picks : List Nat), ∃ r, play_poker g picks sample_round = .ok r) ∧
    (∀ (g : Game) (p : Poll), deal_invariant g → 0 < g.cards_to_deal →
      (g.deck.length : Int) = 47 + g.cards_to_deal ∧
      (∃ g1, deal_cards g = .ok g1) ∧
      ∃ g2, deal_hand_iter g p = .ok g2 ∧ (g2.deck.length : Int) = 47 + g2.cards_to_deal) ∧
    (∀ (g : Game) (k : Fin 5) (p : Poll), g.deck.length = 47 →
      ∃ g1, redeal_card_iter (k.val : Int) g p = .ok g1 ∧
        ((p.space = false ∧ g1.waiting = g.waiting ∧ g1.deck.length = 47) ∨
          (p.space = true ∧ g1.waiting = false ∧ g1.deck.length = 46))) ∧
    (∀ (g g1 : Game) (ps rest : List Poll), hand_deck_invariant g →
      redeal_card g ps = .ok (g1, rest) → g.deck.length = 47 ∧ g1.deck.length = 47) := by
  refine ⟨?_, ?_, ?_, ?_, ?_⟩
  · intro g picks ps
    rcases play_poker_spec g picks ps with herr | ⟨g1, rest, hok, -⟩
    · rw [herr]
      exact ⟨by simp, by simp⟩
    · rw [hok]
      exact ⟨by simp, by simp⟩
  · intro g picks
    obtain ⟨g1, h⟩ := play_poker_completes g picks
    exact ⟨_, h⟩
  · intro g p hinv h0
    have hlen := deal_invariant_deck_length g hinv
    obtain ⟨g2, h2, hinv2, -⟩ := deal_hand_iter_spec g p hinv h0
    exact ⟨hlen, ⟨_, deal_cards_eq g hinv.1 hinv.2.1 (by omega)⟩, g2, h2,
      deal_invariant_deck_length g2 hinv2⟩
  · intro g k p hlen
    have hne : g.deck ≠ [] := by
      intro e
      rw [e] at hlen
      simp at hlen
    obtain ⟨c, cs, hsh, hit⟩ := redeal_card_iter_spec k g p hne
    have hl : (c :: cs).length = 47 := by
      rw [← hsh, shuffle_length, hlen]
    refine ⟨_, hit, ?_⟩
    cases hsp : p.space
    · left
      simpa using hl
    · right
      simpa using hl
  · intro g g1 ps rest hinv h
    exact ⟨hand_deck_invariant_deck_length g hinv,
      hand_deck_invariant_deck_length g1 (redeal_card_keeps_invariant g g1 ps rest hinv h).1⟩

theorem deck_accesses_in_bounds_witness :
    (sample_dealing.deck.length : Int) = 47 + sample_dealing.cards_to_deal ∧
    (∃ g1, deal_cards sample_dealing = .ok g1) ∧
    ∃ g2, deal_hand_iter sample_dealing (space_down [] []) = .ok g2 ∧
      (g2.deck.length : Int) = 47 + g2.cards_to_deal :=
  deck_accesses_in_bounds.2.2.1 sample_dealing (space_down [] []) sample_dealing_invariant
    (by decide)

/-! ## Witnesses for the evaluator -/

theorem score_poker_first_match_witness :
    score_poker sample_two_pair = first_matching_category sample_two_pair ∧
    first_matching_category sample_two_pair = ("Two Pair", 25) :=
  ⟨score_poker_first_match sample_two_pair (by decide) (by decide), by decide⟩

theorem royal_within_straight_flush_witness :
    score_poker sample_royal_flush =
      if get_ords sample_royal_flush = [8, 9, 10, 11, 12] then ("Royal Flush", 10000)
      else ("Straight Flush", 1000) :=
  (royal_within_straight_flush sample_royal_flush).2.2 (by decide) (by decide)

theorem full_house_four_of_a_kind_disjoint_witness :
    check_n_of_a_kind sample_four_of_a_kind = 4 ∧ check_pairs sample_four_of_a_kind = 1 ∧
    check_full_house sample_four_of_a_kind = false ∧
    score_poker sample_four_of_a_kind = ("Four of a Kind", 250) :=
  (full_house_four_of_a_kind_disjoint sample_four_of_a_kind).2.2 (by decide)

/-! ## Dealing one card per press -/

/-- After an iteration of `deal_hand` the hand is the one `deal_cards` left. -/
theorem deal_hand_iter_hand (g : Game) (p : Poll) (hinv : deal_invariant g)
    (h0 : 0 < g.cards_to_deal) :
    ∃ g1, deal_hand_iter g p = .ok g1 ∧ g1.hand = dealt_hand g g.cards_to_deal.toNat := by
  have hlen := deal_invariant_deck_length g hinv
  obtain ⟨hn0, hn5, -⟩ := hinv
  have hdc := deal_cards_eq g hn0 hn5 (by omega)
  obtain ⟨c, cs, hdeck⟩ : ∃ c cs, g.deck = c :: cs := by
    cases hd : g.deck with
    | nil => rw [hd] at hlen; simp at hlen; omega
    | cons c cs => exact ⟨c, cs, rfl⟩
  cases hsp : p.space <;> cases hkp : g.key_pressed <;> cases hsa : p.space_again <;>
  simp [deal_hand_iter, hdc, bind, Except.bind, pure, Except.pure, hsp, hkp, hsa, hdeck,
    deck_erase_begin]

theorem key_pressed_after_eq (kp : Bool) (p : Poll) :
    key_pressed_after kp p =
      if p.space = true ∧ kp = false then true else (kp && p.space_again) := by
  cases kp <;> cases hs : p.space <;> cases ha : p.space_again <;>
  simp [key_pressed_after, hs, ha]

/-- One iteration of `deal_hand` in terms of `deals_card` and
`key_pressed_after`. -/
theorem deal_hand_iter_events (g : Game) (p : Poll) (hinv : deal_invariant g)
    (h0 : 0 < g.cards_to_deal) :
    ∃ g1, deal_hand_iter g p = .ok g1 ∧ deal_invariant g1 ∧
      g1.key_pressed = key_pressed_after g.key_pressed p ∧
      g1.cards_to_deal = g.cards_to_deal - (if deals_card g.key_pressed p then 1 else 0) := by
  obtain ⟨g1, h1, hinv1, -, -, -, hyes, hno⟩ := deal_hand_iter_spec g p hinv h0
  refine ⟨g1, h1, hinv1, ?_, ?_⟩
  · rw [key_pressed_after_eq]
    by_cases hc : p.space = true ∧ g.key_pressed = false
    · rw [if_pos hc]
      exact (hyes hc).2.1
    · rw [if_neg hc]
      exact (hno hc).2.2.2
  · by_cases hc : p.space = true ∧ g.key_pressed = false
    · have : deals_card g.key_pressed p = true := by simp [deals_card, hc.1, hc.2]
      rw [this, (hyes hc).1]
      simp
    · have : deals_card g.key_pressed p = false := by
        cases hs : p.space <;> cases hk : g.key_pressed <;> simp_all [deals_card]
      rw [this, (hno hc).1]
      simp

/-- While fewer polls deal a card than cards remain, `deal_hand` reads on: the
polls `ps` lower `cards_to_deal` by the number of polls among them that deal. -/
theorem deal_hand_reads_on (ps rest : List Poll) (g : Game) (hinv : deal_invariant g)
    (h : (deal_events g.key_pressed ps : Int) < g.cards_to_deal) :
    ∃ g1, deal_hand g (ps ++ rest) = deal_hand g1 rest ∧ deal_invariant g1 ∧
      g1.cards_to_deal = g.cards_to_deal - deal_events g.key_pressed ps := by
  induction ps generalizing g with
  | nil => exact ⟨g, rfl, hinv, by simp [deal_events]⟩
  | cons p ps ih =>
    have h0 : 0 < g.cards_to_deal := by omega
    obtain ⟨g1, h1, hinv1, hk1, hn1⟩ := deal_hand_iter_events g p hinv h0
    have hstep : deal_hand g (p :: ps ++ rest) = deal_hand g1 (ps ++ rest) := by
      simp [deal_hand, h0, h1, Except.bind]
    cases hd : deals_card g.key_pressed p
    · simp only [deal_events, hd, Bool.false_eq_true, if_false, Nat.zero_add] at h ⊢
      simp only [hd, Bool.false_eq_true, if_false, Int.sub_zero] at hn1
      obtain ⟨g2, h2, hinv2, hn2⟩ := ih g1 hinv1 (by rw [hk1, hn1]; exact h)
      exact ⟨g2, hstep.trans h2, hinv2, by rw [hn2, hn1, hk1]⟩
    · simp only [deal_events, hd, if_true] at h ⊢
      simp only [hd, if_true] at hn1
      push_cast at h ⊢
      obtain ⟨g2, h2, hinv2, hn2⟩ := ih g1 hinv1 (by rw [hk1, hn1]; omega)
      exact ⟨g2, hstep.trans h2, hinv2, by rw [hn2, hn1, hk1]; omega⟩

/-- The loop of `deal_hand` ends exactly when as many polls have dealt a card
as there were cards to deal: with fewer such polls in the input it is still
polling when the input ends; otherwise it returns with `cards_to_deal = 0`, and
the polls it has read contain exactly `cards_to_deal` polls that deal. -/
theorem deal_hand_ends_after_events (ps : List Poll) (g : Game) (hinv : deal_invariant g) :
    ((deal_events g.key_pressed ps : Int) < g.cards_to_deal →
      deal_hand g ps = .error .awaitingInput) ∧
    (g.cards_to_deal ≤ (deal_events g.key_pressed ps : Int) →
      ∃ g1 used rest, deal_hand g ps = .ok (g1, rest) ∧ ps = used ++ rest ∧
        (deal_events g.key_pressed used : Int) = g.cards_to_deal ∧ g1.cards_to_deal = 0) := by
  induction ps generalizing g with
  | nil =>
    constructor
    · intro h
      simp only [deal_events, Nat.cast_zero] at h
      simp [deal_hand, h]
    · intro h
      simp only [deal_events, Nat.cast_zero] at h
      have hz : g.cards_to_deal = 0 := by have := hinv.1; omega
      exact ⟨g, [], [], by simp [deal_hand, hz], rfl, by simp [deal_events, hz], hz⟩
  | cons p ps ih =>
    by_cases h0 : 0 < g.cards_to_deal
    · obtain ⟨g1, h1, hinv1, hk1, hn1⟩ := deal_hand_iter_events g p hinv h0
      have hstep : deal_hand g (p :: ps) = deal_hand g1 ps := by
        simp [deal_hand, h0, h1, Except.bind]
      obtain ⟨ih1, ih2⟩ := ih g1 hinv1
      rw [hk1, hn1] at ih1 ih2
      rw [hstep]
      cases hd : deals_card g.key_pressed p
      · simp only [deal_events, hd, Bool.false_eq_true, if_false, Nat.zero_add]
        simp only [hd, Bool.false_eq_true, if_false, Int.sub_zero] at ih1 ih2
        refine ⟨ih1, ?_⟩
        intro h
        obtain ⟨g2, used, rest, hok, hps, hcount, hz⟩ := ih2 h
        refine ⟨g2, p :: used, rest, hok, by simp [hps], ?_, hz⟩
        simp only [deal_events, hd, Bool.false_eq_true, if_false, Nat.zero_add]
        exact hcount
      · simp only [deal_events, hd, if_true]
        simp only [hd, if_true] at ih1 ih2
        push_cast
        refine ⟨fun h => ih1 (by omega), ?_⟩
        intro h
        obtain ⟨g2, used, rest, hok, hps, hcount, hz⟩ := ih2 (by omega)
        refine ⟨g2, p :: used, rest, hok, by simp [hps], ?_, hz⟩
        simp only [deal_events, hd, if_true]
        push_cast
        omega
    · have hz : g.cards_to_deal = 0 := by have := hinv.1; omega
      constructor
      · intro h
        have : (0 : Int) ≤ (deal_events g.key_pressed (p :: ps) : Int) := Int.natCast_nonneg _
        omega
      · intro _
        exact ⟨g, [], p :: ps, by simp [deal_hand, hz], rfl, by simp [deal_events, hz], hz⟩

/-- A signal held active over consecutive polls contains exactly one poll that
deals when `key_pressed` was false before, and none when it was true. -/
theorem deal_events_held (ps : List Poll)
    (hheld : ∀ q ∈ ps, q.space = true ∧ q.space_again = true) :
    deal_events true ps = 0 ∧ (ps ≠ [] → deal_events false ps = 1) := by
  have htrue : ∀ l : List Poll, (∀ q ∈ l, q.space = true ∧ q.space_again = true) →
      deal_events true l = 0 := by
    intro l
    induction l with
    | nil => intro _; rfl
    | cons q l ih =>
      intro hl
      have hq := hl q (List.mem_cons_self q l)
      have := ih (fun x hx => hl x (List.mem_cons_of_mem q hx))
      simp [deal_events, deals_card, key_pressed_after, hq.1, hq.2, this]
  refine ⟨htrue ps hheld, ?_⟩
  intro hne
  cases ps with
  | nil => exact absurd rfl hne
  | cons q l =>
    have hq := hheld q (List.mem_cons_self q l)
    have := htrue l (fun x hx => hheld x (List.mem_cons_of_mem q hx))
    simp [deal_events, deals_card, key_pressed_after, hq.1, this]

/-- C11, as stated, fails. `play_poker` starts `deal_hand` without resetting
`key_pressed`; started from a state in which the flag is still true (as the
previous round's last deal leaves it) and with Space held down over three
consecutive polls, `deal_hand` deals no card: `cards_to_deal` is still 5 and
the deck still holds 52 cards. From the same state with the flag false the same
three polls deal exactly one card. And `deal_hand` reads Space twice in an
iteration: from the state with the flag true, a poll whose first read is down
and whose second read is up leaves the flag false, not equal to the sample the
deal test used. -/
theorem held_signal_with_flag_set_deals_nothing :
    (initialize_deck { sample_dealt with cards_to_deal := 5, redeals_remaining := 5 }
      []).key_pressed = true ∧
    (((deal_hand_iter
          (initialize_deck { sample_dealt with cards_to_deal := 5, redeals_remaining := 5 } [])
          (space_down [] [])).bind
        (fun g => deal_hand_iter g (space_down [] []))).bind
        (fun g => deal_hand_iter g (space_down [] []))).toOption.map
        (fun g => (g.cards_to_deal, g.deck.length, g.key_pressed)) = some (5, 52, true) ∧
    (((deal_hand_iter
          (initialize_deck
            { sample_dealt with cards_to_deal := 5, redeals_remaining := 5,
                                key_pressed := false } [])
          (space_down [] [])).bind
        (fun g => deal_hand_iter g (space_down [] []))).bind
        (fun g => deal_hand_iter g (space_down [] []))).toOption.map
        (fun g => (g.cards_to_deal, g.deck.length, g.key_pressed)) = some (4, 51, true) ∧
    (deal_hand_iter
        (initialize_deck { sample_dealt with cards_to_deal := 5, redeals_remaining := 5 } [])
        { space := true, space_again := false, digits := [], picks := [] }).toOption.map
        (fun g => (g.cards_to_deal, g.key_pressed)) = some (5, false) := by
  refine ⟨rfl, by decide, by decide, by decide⟩

/-- C11, amended. Dealing advances one card per press, left to right. In a
state of `deal_hand` with `n = cards_to_deal > 0` every poll returns and leaves
the revealed slots `0..4-n` unchanged; it deals exactly when Space is down and
`key_pressed` is false: then the front card of the deck is put in slot
`5 - n`, is no longer in the deck, and `n` drops by one; otherwise `n` is
unchanged and the deck is only reshuffled. After a poll `key_pressed` equals
the sample of Space the poll acted on: its first read when the flag was false
before, its second read when it was true, so the poll's sample when both reads
agree. Input whose polls deal fewer than `n` times is read on and lowers `n`
by the number of polls that deal; the loop returns, with `n = 0`, exactly when
`n` polls have dealt, so after exactly 5 of them in a round. A signal held
active over consecutive polls deals exactly one card when `key_pressed` was
false before the first of them. -/
theorem deal_hand_one_card_per_press :
    (∀ (g : Game) (p : Poll), deal_invariant g → 0 < g.cards_to_deal →
      ∃ g1, deal_hand_iter g p = .ok g1 ∧
        (∀ j : Fin 5, (j.val : Int) < 5 - g.cards_to_deal → g1.hand j = g.hand j) ∧
        g1.key_pressed = key_pressed_after g.key_pressed p ∧
        g1.key_pressed = (if g.key_pressed = true then p.space_again else p.space) ∧
        (p.space_again = p.space → g1.key_pressed = p.space) ∧
        (p.space = true ∧ g.key_pressed = false →
          g1.cards_to_deal = g.cards_to_deal - 1 ∧
          ∃ c cs, g.deck = c :: cs ∧
            (∀ k : Fin 5, (k.val : Int) = 5 - g.cards_to_deal → g1.hand k = c) ∧
            g1.deck.Perm cs ∧ c ∉ g1.deck) ∧
        (¬(p.space = true ∧ g.key_pressed = false) →
          g1.cards_to_deal = g.cards_to_deal ∧ g1.deck.Perm g.deck)) ∧
    (∀ (g : Game) (ps rest : List Poll), deal_invariant g →
      (deal_events g.key_pressed ps : Int) < g.cards_to_deal →
      ∃ g1, deal_hand g (ps ++ rest) = deal_hand g1 rest ∧
        g1.cards_to_deal = g.cards_to_deal - deal_events g.key_pressed ps) ∧
    (∀ (g : Game) (ps : List Poll), deal_invariant g →
      ((deal_events g.key_pressed ps : Int) < g.cards_to_deal →
        deal_hand g ps = .error .awaitingInput) ∧
      (g.cards_to_deal ≤ (deal_events g.key_pressed ps : Int) →
        ∃ g1 used rest, deal_hand g ps = .ok (g1, rest) ∧ ps = used ++ rest ∧
          (deal_events g.key_pressed used : Int) = g.cards_to_deal ∧
          g1.cards_to_deal = 0)) ∧
    (∀ (g g1 : Game) (picks : List Nat) (ps rest : List Poll),
      deal_hand (initialize_deck { g with cards_to_deal := 5, redeals_remaining := 5 } picks)
        ps = .ok (g1, rest) →
      g1.cards_to_deal = 0 ∧
      ∃ used, ps = used ++ rest ∧ deal_events g.key_pressed used = 5) ∧
    (∀ ps : List Poll, (∀ q ∈ ps, q.space = true ∧ q.space_again = true) → ps ≠ [] →
      deal_events false ps = 1) ∧
    (∀ (g : Game) (ps rest : List Poll), deal_invariant g → g.key_pressed = false →
      2 ≤ g.cards_to_deal → ps ≠ [] → (∀ q ∈ ps, q.space = true ∧ q.space_again = true) →
      ∃ g1, deal_hand g (ps ++ rest) = deal_hand g1 rest ∧
        g1.cards_to_deal = g.cards_to_deal - 1) ∧
    (∀ (g : Game) (p : Poll) (rest : List Poll), deal_invariant g → g.key_pressed = false →
      g.cards_to_deal = 1 → p.space = true →
      ∃ g1, deal_hand g (p :: rest) = .ok (g1, rest) ∧ g1.cards_to_deal = 0) := by
  refine ⟨?_, ?_, ?_, ?_, fun ps hheld hne => (deal_events_held ps hheld).2 hne, ?_, ?_⟩
  · intro g p hinv h0
    obtain ⟨g1, h1, hinv1, -, -, -, hyes, hno⟩ := deal_hand_iter_spec g p hinv h0
    obtain ⟨g2, h2, hhand⟩ := deal_hand_iter_hand g p hinv h0
    obtain ⟨g3, h3, -, hkp, -⟩ := deal_hand_iter_events g p hinv h0
    have e2 : g2 = g1 := Except.ok.inj (h2.symm.trans h1)
    have e3 : g3 = g1 := Except.ok.inj (h3.symm.trans h1)
    subst e2
    subst e3
    have hn0 := hinv.1
    have hn5 := hinv.2.1
    refine ⟨g3, h1, ?_, hkp, ?_, ?_, ?_, ?_⟩
    · intro j hj
      rw [hhand]
      exact dealt_hand_of_lt g _ j (by omega)
    · rw [hkp]
      cases hs : p.space <;> cases hk : g.key_pressed <;> cases ha : p.space_again <;>
      simp [key_pressed_after, hs, ha]
    · intro hsame
      rw [hkp]
      cases hs : p.space <;> cases hk : g.key_pressed <;>
      simp [key_pressed_after, hs, hsame]
    · intro hc
      obtain ⟨hn1, -, c, cs, hdeck, -, hd1⟩ := hyes hc
      refine ⟨hn1, c, cs, hdeck, ?_, ?_, ?_⟩
      · intro k hk
        rw [hhand]
        unfold dealt_hand
        rw [if_pos (by omega)]
        have : k.val - (5 - g.cards_to_deal).toNat = 0 := by omega
        rw [this, hdeck]
        rfl
      · rw [hd1]
        exact shuffle_perm _ _
      · have hnd : (committed g ++ g.deck).Nodup := hinv.2.2.nodup_iff.mpr full_deck_nodup
        rw [hdeck] at hnd
        have hcs : c ∉ cs := (List.nodup_cons.mp (List.nodup_append.mp hnd).2.1).1
        rw [hd1]
        exact fun hm => hcs ((shuffle_perm _ _).subset hm)
    · intro hc
      obtain ⟨hn1, -, hd1, -⟩ := hno hc
      exact ⟨hn1, by rw [hd1]; exact shuffle_perm _ _⟩
  · intro g ps rest hinv h
    obtain ⟨g1, h1, -, hn1⟩ := deal_hand_reads_on ps rest g hinv h
    exact ⟨g1, h1, hn1⟩
  · intro g ps hinv
    exact deal_hand_ends_after_events ps g hinv
  · intro g g1 picks ps rest h
    have hinv := initialize_deck_invariant g picks
    obtain ⟨hlt, hge⟩ := deal_hand_ends_after_events ps _ hinv
    have hn : (initialize_deck { g with cards_to_deal := 5, redeals_remaining := 5 }
        picks).cards_to_deal = 5 := rfl
    have hk : (initialize_deck { g with cards_to_deal := 5, redeals_remaining := 5 }
        picks).key_pressed = g.key_pressed := rfl
    rw [hn, hk] at hlt hge
    by_cases hcount : ((deal_events g.key_pressed ps : Int) < 5)
    · rw [hlt hcount] at h
      cases h
    · obtain ⟨g2, used, rest2, hok, hps, hc, hz⟩ := hge (by omega)
      rw [hok] at h
      simp only [Except.ok.injEq, Prod.mk.injEq] at h
      obtain ⟨rfl, rfl⟩ := h
      exact ⟨hz, used, hps, by exact_mod_cast hc⟩
  · intro g ps rest hinv hkp h2 hne hheld
    have hone := (deal_events_held ps hheld).2 hne
    obtain ⟨g1, h1, -, hn1⟩ := deal_hand_reads_on ps rest g hinv (by
      rw [hkp, hone]
      push_cast
      omega)
    refine ⟨g1, h1, ?_⟩
    rw [hn1, hkp, hone]
    rfl
  · intro g p rest hinv hkp hn hsp
    obtain ⟨g1, h1, hinv1, -, hn1⟩ := deal_hand_iter_events g p hinv (by omega)
    have hd : deals_card g.key_pressed p = true := by simp [deals_card, hsp, hkp]
    rw [hd, hn] at hn1
    have hz : g1.cards_to_deal = 0 := by simpa using hn1
    refine ⟨g1, ?_, hz⟩
    have h0 : g.cards_to_deal > 0 := by omega
    have hstep : deal_hand g (p :: rest) = deal_hand g1 rest := by
      simp [deal_hand, h0, h1, Except.bind]
    rw [hstep]
    cases rest <;> simp [deal_hand, hz]

theorem deal_hand_one_card_per_press_witness :
    ∃ g1, deal_hand_iter sample_dealing (space_down [] []) = .ok g1 ∧
      g1.cards_to_deal = 0 ∧ g1.hand 4 = ⟨'6', 'D', 4⟩ ∧ g1.hand 0 = sample_dealing.hand 0 ∧
      g1.key_pressed = true := by
  obtain ⟨g1, h1, hsame, -, -, hflag, hyes, -⟩ :=
    deal_hand_one_card_per_press.1 sample_dealing (space_down [] [])
      sample_dealing_invariant (by decide)
  obtain ⟨hn, c, cs, hdeck, hslot, -, -⟩ := hyes ⟨rfl, rfl⟩
  have hc : c = ⟨'6', 'D', 4⟩ := by
    have : sample_dealing.deck.head? = some c := by rw [hdeck]; rfl
    have h6 : sample_dealing.deck.head? = some ⟨'6', 'D', 4⟩ := by decide
    rw [h6] at this
    exact (Option.some.inj this).symm
  refine ⟨g1, h1, by rw [hn]; rfl, ?_, hsame 0 (by decide), hflag rfl⟩
  rw [hslot 4 (by decide), hc]

end PokerMachine
